import Mathlib

/-!
Verification of the PEFT → candle-lora conversion engine
(`candle-lora/src/peft_convert.rs`).

The conversion core is a pure metadata transform over a loaded mapping of
tensor name → tensor.  We embed that core shallowly: strings become lists of
characters, the `HashMap` becomes the list of its entries in iteration order
(well-formed maps have pairwise distinct keys), tensors keep only the
attributes the code consumes (shape, dtype, and an opaque payload, since the
code never reads tensor contents), and the file-system of the directory-level
entry points becomes the set of file names present.
-/

set_option maxHeartbeats 1000000

/-- Element type of a tensor (`candle_core::DType`).  Only `F32` is ever
constructed by the conversion code itself. -/
inductive DTy where
  | F32
  | F16
deriving DecidableEq

/-- Payload of a tensor.  The conversion code never inspects tensor contents:
it only clones loaded tensors verbatim or synthesizes zero-filled ones with
`Tensor::zeros`, so contents are an opaque identifier for loaded data plus a
`zeros` tag for zero-filled data. -/
inductive TData where
  | raw (id : Nat)
  | zeros
deriving DecidableEq

/-- A tensor (`candle_core::Tensor`): shape, element type and payload. -/
structure Tensor where
  shape : List Nat
  dtype : DTy
  data : TData
deriving DecidableEq

/-- Model of `Tensor::zeros(shape, dtype, device)`. -/
def Tensor.zeros (shape : List Nat) (dtype : DTy) : Tensor :=
  { shape := shape, dtype := dtype, data := TData.zeros }

/-- Tensor names are UTF-8 strings, modelled as their character sequences
(byte-lexicographic order on UTF-8 strings coincides with lexicographic order
on the character sequences). -/
abbrev Name := List Char

/-- A tensor mapping (`HashMap<String, Tensor>`), as the list of its entries
in iteration order.  A map produced by `safetensors::load` has pairwise
distinct keys. -/
abbrev TensorMap := List (Name × Tensor)

/-- Rust `str::contains(pat)`: `pat` occurs as a contiguous substring. -/
def containsSub (pat : Name) : Name → Bool
  | [] => pat.isEmpty
  | c :: rest => pat.isPrefixOf (c :: rest) || containsSub pat rest

/-- Rust `s.replace(pat, "")` for a nonempty `pat`: remove the non-overlapping
occurrences of `pat`, scanning left to right. -/
def removeAll (pat : Name) (s : Name) : Name :=
  match s with
  | [] => []
  | c :: rest =>
    if !pat.isEmpty && pat.isPrefixOf (c :: rest) then
      removeAll pat (rest.drop (pat.length - 1))
    else
      c :: removeAll pat rest
termination_by s.length
decreasing_by
  · simp only [List.length_drop, List.length_cons]
    omega
  · simp only [List.length_cons]
    omega

/-- Rust `Ord` on `String`, as the Boolean test `a.cmp(&b) != Greater`:
lexicographic comparison of the character sequences. -/
def nameLe : Name → Name → Bool
  | [], _ => true
  | _ :: _, [] => false
  | a :: s, b :: t => if a = b then nameLe s t else decide (a < b)

/-- The PEFT A-factor marker `".lora_A.weight"`. -/
def loraA : Name := ".lora_A.weight".data

/-- The PEFT B-factor marker `".lora_B.weight"`. -/
def loraB : Name := ".lora_B.weight".data

/-- `HashMap::get(k)`: the value stored at key `k`, when present. -/
def mapGet (k : Name) : TensorMap → Option Tensor
  | [] => none
  | e :: rest => if e.1 = k then some e.2 else mapGet k rest

/-- `HashMap::insert(k, v)`: replace any entry at `k` by `(k, v)`. -/
def insertKV (m : TensorMap) (k : Name) (v : Tensor) : TensorMap :=
  m.filter (fun e => !decide (e.1 = k)) ++ [(k, v)]

/-- State of the pair-grouping loop of `convert_peft_to_candle_lora` and
`convert_peft_to_candle_lora_typed`: the collected
`(base_name, lora_a, lora_b)` triples (`lora_pairs`) and the consumed keys
(`processed_keys`). -/
structure ExtractSt where
  pairs : List (Name × Tensor × Tensor)
  processed : List Name

/-- One iteration of the pair-grouping loop (`peft_convert.rs` lines 100–111
and 202–213): a not-yet-consumed key containing `".lora_A.weight"` is reduced
to its `base_name` by removing every occurrence of the marker; if
`base_name + ".lora_B.weight"` is present in the source map, the pair is
recorded and both keys are marked consumed. -/
def extractStep (m : TensorMap) (st : ExtractSt) (e : Name × Tensor) : ExtractSt :=
  if containsSub loraA e.1 && !decide (e.1 ∈ st.processed) then
    match mapGet (removeAll loraA e.1 ++ loraB) m with
    | some b =>
      { pairs := st.pairs ++ [(removeAll loraA e.1, e.2, b)]
        processed := st.processed ++ [e.1, removeAll loraA e.1 ++ loraB] }
    | none => st
  else st

/-- The pair-grouping loop, run over the iteration order of the source map. -/
def extractPairs (m : TensorMap) : List (Name × Tensor × Tensor) :=
  (m.foldl (extractStep m) ⟨[], []⟩).pairs

/-- Decimal digits of `n`, most significant first (Rust `Display` for
`usize`, as used by `format!`). -/
def natDigits (n : Nat) : List Char :=
  if n < 10 then [Char.ofNat (48 + n)]
  else natDigits (n / 10) ++ [Char.ofNat (48 + n % 10)]
termination_by n
decreasing_by exact Nat.div_lt_self (by omega) (by omega)

/-- `format!("{}.a{}.weight", pre, idx)`. -/
def aNm (pre : Name) (idx : Nat) : Name :=
  pre ++ '.' :: 'a' :: (natDigits idx ++ ".weight".data)

/-- `format!("{}.b{}.weight", pre, idx)`. -/
def bNm (pre : Name) (idx : Nat) : Name :=
  pre ++ '.' :: 'b' :: (natDigits idx ++ ".weight".data)

/-- The emission loop shared by both conversion functions (lines 119–125 and
the `process_group` closure at lines 238–249): insert `a{counter}`/`b{counter}`
entries for each pair in order, the counter starting at 0. -/
def emitGroup (pre : Name) (ps : List (Name × Tensor × Tensor)) (ct : TensorMap) : TensorMap :=
  ps.enum.foldl
    (fun acc ip => insertKV (insertKV acc (aNm pre ip.1) ip.2.2.1) (bNm pre ip.1) ip.2.2.2) ct

/-- `lora_pairs.sort_by(|a, b| a.0.cmp(&b.0))` and
`sort_by_key(|(key, _, _)| *key)`: stable sort by base name. -/
def sortByBase (ps : List (Name × Tensor × Tensor)) : List (Name × Tensor × Tensor) :=
  ps.mergeSort (fun p q => nameLe p.1 q.1)

/-- Pure core of `convert_peft_to_candle_lora` (lines 87–131): the saved
output map as a function of the loaded source map and the caller's name
prefix string. -/
def convert_peft_to_candle_lora (m : TensorMap) (pre : Name) : TensorMap :=
  emitGroup pre (sortByBase (extractPairs m)) []

/-- The `CandleLoraPrefix` enum: candle-lora naming prefixes for the three
layer classes. -/
inductive CandleLoraPrefix where
  | Llama
  | LlamaCsa
  | LlamaBlock
deriving DecidableEq

/-- `CandleLoraPrefix::as_str` (lines 25–31). -/
def CandleLoraPrefix.as_str : CandleLoraPrefix → Name
  | .Llama => "lora_llama".data
  | .LlamaCsa => "lora_llama_csa".data
  | .LlamaBlock => "lora_llama_block".data

/-- `CandleLoraPrefix::from_peft_layer_name` (lines 34–47): the layer
classifier. -/
def CandleLoraPrefix.from_peft_layer_name (name : Name) : CandleLoraPrefix :=
  if containsSub "embed_tokens".data name || containsSub "lm_head".data name then
    .Llama
  else if containsSub "self_attn".data name &&
      (containsSub "q_proj".data name || containsSub "k_proj".data name ||
        containsSub "v_proj".data name || containsSub "o_proj".data name) then
    .LlamaCsa
  else
    .LlamaBlock

/-- The dummy A factor `Tensor::zeros((rank, vocab_size))` with the hardcoded
`rank = 4`, `vocab_size = 32000` (lines 266–270). -/
def dummyA : Tensor := Tensor.zeros [4, 32000] DTy.F32

/-- The dummy B factor `Tensor::zeros((hidden_size, rank))` with the hardcoded
`hidden_size = 2048`, `rank = 4` (lines 267–271). -/
def dummyB : Tensor := Tensor.zeros [2048, 4] DTy.F32

/-- One class's sorted group of pairs: the loop at lines 220–227 pushes each
pair into the vector of its layer class in iteration order (equivalently, a
filter), and lines 229–232 sort each vector by key. -/
def classGroup (c : CandleLoraPrefix) (m : TensorMap) : List (Name × Tensor × Tensor) :=
  sortByBase ((extractPairs m).filter
    (fun p => decide (CandleLoraPrefix.from_peft_layer_name p.1 = c)))

/-- Pure core of `convert_peft_to_candle_lora_typed` (lines 189–282): group
the extracted pairs by layer class, sort each group, emit each nonempty group
under its fixed prefix with an independent counter starting at 0, then
optionally inject the dummy embedding pair when no emitted key starts with
`"lora_llama."`. -/
def convert_peft_to_candle_lora_typed (m : TensorMap) (add_dummy_embeddings : Bool) :
    TensorMap :=
  let llama_weights := classGroup CandleLoraPrefix.Llama m
  let llama_csa_weights := classGroup CandleLoraPrefix.LlamaCsa m
  let llama_block_weights := classGroup CandleLoraPrefix.LlamaBlock m
  let ct1 := if llama_weights.isEmpty then ([] : TensorMap)
    else emitGroup (CandleLoraPrefix.Llama.as_str) llama_weights []
  let ct2 := if llama_csa_weights.isEmpty then ct1
    else emitGroup (CandleLoraPrefix.LlamaCsa.as_str) llama_csa_weights ct1
  let ct3 := if llama_block_weights.isEmpty then ct2
    else emitGroup (CandleLoraPrefix.LlamaBlock.as_str) llama_block_weights ct2
  if add_dummy_embeddings then
    if ct3.any (fun e => "lora_llama.".data.isPrefixOf e.1) then ct3
    else insertKV (insertKV ct3 "lora_llama.a0.weight".data dummyA)
      "lora_llama.b0.weight".data dummyB
  else ct3

/-- Files present in a directory, for the `Path::exists` checks of the
directory-level entry points. -/
structure Dir where
  files : List Name

/-- `path.exists()` for a file name inside the directory. -/
def Dir.fileExists (d : Dir) (f : Name) : Bool := decide (f ∈ d.files)

/-- The error message of lines 160–163 and 310–313. -/
def noAdapterMsg : Name :=
  "No adapter weights found (tried adapter_model.safetensors and adapter.safetensors)".data

/-- Pure core of `convert_peft_dir_to_candle_lora` (lines 143–177): resolve
the adapter weight file among the two fixed candidates, then convert its
contents; with neither candidate present, fail before any output is produced.
`load` models the external safetensors loader applied to a file of the
directory. -/
def convert_peft_dir_to_candle_lora (d : Dir) (load : Name → TensorMap) (pre : Name) :
    Except Name TensorMap :=
  if d.fileExists "adapter_model.safetensors".data then
    Except.ok (convert_peft_to_candle_lora (load "adapter_model.safetensors".data) pre)
  else if d.fileExists "adapter.safetensors".data then
    Except.ok (convert_peft_to_candle_lora (load "adapter.safetensors".data) pre)
  else
    Except.error noAdapterMsg

/-- Pure core of `convert_peft_dir_to_candle_lora_typed` (lines 293–332). -/
def convert_peft_dir_to_candle_lora_typed (d : Dir) (load : Name → TensorMap)
    (add_dummy_embeddings : Bool) : Except Name TensorMap :=
  if d.fileExists "adapter_model.safetensors".data then
    Except.ok (convert_peft_to_candle_lora_typed
      (load "adapter_model.safetensors".data) add_dummy_embeddings)
  else if d.fileExists "adapter.safetensors".data then
    Except.ok (convert_peft_to_candle_lora_typed
      (load "adapter.safetensors".data) add_dummy_embeddings)
  else
    Except.error noAdapterMsg

/-! Concrete inputs used to test the embedding on specific maps. -/

/-- A sample loaded tensor. -/
def tA : Tensor := ⟨[16, 2048], DTy.F32, TData.raw 1⟩

/-- A second sample loaded tensor. -/
def tB : Tensor := ⟨[2048, 16], DTy.F32, TData.raw 2⟩

/-- A third sample loaded tensor. -/
def tC : Tensor := ⟨[8, 8], DTy.F32, TData.raw 3⟩

/-- A source map whose adversarial keys make extraction order-dependent: the
key `".lora_A.weight.lora_B.weight"` both contains the A marker and is the
looked-up B counterpart of `".lora_A.lora_A.weight.weight"`. -/
def cex1a : TensorMap :=
  [(".lora_A.lora_A.weight.weight".data, tA),
    (".lora_A.weight.lora_B.weight".data, tB),
    (".lora_B.weight.lora_B.weight".data, tC)]

/-- The same entries as `cex1a` in a different iteration order. -/
def cex1b : TensorMap :=
  [(".lora_A.weight.lora_B.weight".data, tB),
    (".lora_A.lora_A.weight.weight".data, tA),
    (".lora_B.weight.lora_B.weight".data, tC)]

/-- A source map in which two distinct keys reduce to the same base name
`"x"`, so three tensors yield two pairs. -/
def cex2 : TensorMap :=
  [("x.lora_A.weight".data, tA),
    ("x.lora_A.weight.lora_A.weight".data, tB),
    ("x.lora_B.weight".data, tC)]

/-- A source map whose only A-marked key carries the marker strictly inside
the name, not as a suffix. -/
def cex3 : TensorMap :=
  [("m.lora_A.weightX".data, tA), ("mX.lora_B.weight".data, tB)]

/-- A source map whose first key ends with the A marker but, reading the base
name as the key minus that suffix, has no B counterpart — yet the code still
pairs it (it removes both occurrences of the marker). -/
def cex8 : TensorMap :=
  [("x.lora_A.weight.lora_A.weight".data, tA), ("x.lora_B.weight".data, tB)]

/-- A well-formed PEFT map: one attention pair. -/
def wAttn : TensorMap :=
  [("model.layers.0.self_attn.q_proj.lora_A.weight".data, tA),
    ("model.layers.0.self_attn.q_proj.lora_B.weight".data, tB)]

/-- The same entries as `wAttn` in the opposite iteration order. -/
def wAttnRev : TensorMap :=
  [("model.layers.0.self_attn.q_proj.lora_B.weight".data, tB),
    ("model.layers.0.self_attn.q_proj.lora_A.weight".data, tA)]

/-- A well-formed map holding a single orphaned A factor. -/
def wOrphan : TensorMap :=
  [("model.layers.0.self_attn.q_proj.lora_A.weight".data, tA)]

/-! Lemmas about map lookup and insertion. -/

theorem mapGet_nil {k : Name} : mapGet k [] = none := rfl

theorem mapGet_cons {k k' : Name} {v : Tensor} {m : TensorMap} :
    mapGet k ((k', v) :: m) = if k' = k then some v else mapGet k m := rfl

theorem mapGet_mem {k : Name} {v : Tensor} {m : TensorMap}
    (h : mapGet k m = some v) : (k, v) ∈ m := by
  induction m with
  | nil => simp [mapGet_nil] at h
  | cons e rest ih =>
    obtain ⟨k', v'⟩ := e
    rw [mapGet_cons] at h
    by_cases he : k' = k
    · rw [if_pos he] at h
      subst he
      rw [Option.some_inj] at h
      subst h
      exact List.mem_cons_self _ _
    · rw [if_neg he] at h
      exact List.mem_cons_of_mem _ (ih h)

theorem mapGet_eq_none_iff {k : Name} {m : TensorMap} :
    mapGet k m = none ↔ ∀ t, (k, t) ∉ m := by
  induction m with
  | nil => simp [mapGet_nil]
  | cons e rest ih =>
    obtain ⟨k', v'⟩ := e
    rw [mapGet_cons]
    by_cases he : k' = k
    · subst he
      simp only [if_pos rfl]
      constructor
      · intro h
        simp at h
      · intro h
        exact absurd (List.mem_cons_self _ _) (h v')
    · simp only [if_neg he, ih, List.mem_cons, Prod.mk.injEq]
      constructor
      · intro h t hc
        rcases hc with hc | hc
        · exact he hc.1.symm
        · exact h t hc
      · intro h t hc
        exact h t (Or.inr hc)

theorem mapGet_of_mem_nodup {k : Name} {v : Tensor} {m : TensorMap}
    (hnd : (m.map Prod.fst).Nodup) (hm : (k, v) ∈ m) : mapGet k m = some v := by
  induction m with
  | nil => simp at hm
  | cons e rest ih =>
    obtain ⟨k', v'⟩ := e
    rw [List.map_cons, List.nodup_cons] at hnd
    rw [mapGet_cons]
    rcases List.mem_cons.mp hm with hm' | hm'
    · rw [Prod.mk.injEq] at hm'
      rw [if_pos hm'.1.symm, hm'.2]
    · have hne : k' ≠ k := by
        intro he
        have hmem : k ∈ rest.map Prod.fst :=
          he ▸ List.mem_map_of_mem Prod.fst hm'
        exact hnd.1 (show (k', v').1 ∈ rest.map Prod.fst from he ▸ hmem)
      rw [if_neg hne]
      exact ih hnd.2 hm'

theorem mapGet_congr_perm {m₁ m₂ : TensorMap} (hp : m₁.Perm m₂)
    (hnd : (m₁.map Prod.fst).Nodup) (k : Name) : mapGet k m₁ = mapGet k m₂ := by
  have hnd₂ : (m₂.map Prod.fst).Nodup := ((hp.map Prod.fst).nodup_iff).mp hnd
  cases h : mapGet k m₁ with
  | some v => exact (mapGet_of_mem_nodup hnd₂ (hp.mem_iff.mp (mapGet_mem h))).symm
  | none =>
    cases h₂ : mapGet k m₂ with
    | some v => exact absurd (hp.mem_iff.mpr (mapGet_mem h₂)) (mapGet_eq_none_iff.mp h v)
    | none => rfl

theorem mapGet_filter_of_keep {k : Name} {p : Name × Tensor → Bool} {m : TensorMap}
    (h : ∀ t, (k, t) ∈ m → p (k, t) = true) :
    mapGet k (m.filter p) = mapGet k m := by
  induction m with
  | nil => rfl
  | cons e rest ih =>
    obtain ⟨k', v'⟩ := e
    have tail : mapGet k (rest.filter p) = mapGet k rest :=
      ih (fun t ht => h t (List.mem_cons_of_mem _ ht))
    by_cases he : k' = k
    · subst he
      rw [List.filter_cons, if_pos (h v' (List.mem_cons_self _ _)), mapGet_cons,
        if_pos rfl, mapGet_cons, if_pos rfl]
    · rw [List.filter_cons, mapGet_cons, if_neg he]
      by_cases hpe : p (k', v') = true
      · rw [if_pos hpe, mapGet_cons, if_neg he]
        exact tail
      · rw [if_neg hpe]
        exact tail

theorem mapGet_filter_none {k : Name} {p : Name × Tensor → Bool} {m : TensorMap}
    (h : mapGet k m = none) : mapGet k (m.filter p) = none := by
  rw [mapGet_eq_none_iff] at h ⊢
  intro t ht
  exact h t (List.mem_of_mem_filter ht)

theorem mapGet_isSome_iff {k : Name} {m : TensorMap} :
    (mapGet k m).isSome = true ↔ ∃ t, (k, t) ∈ m := by
  constructor
  · intro h
    rcases Option.isSome_iff_exists.mp h with ⟨t, ht⟩
    exact ⟨t, mapGet_mem ht⟩
  · intro ⟨t, ht⟩
    cases h : mapGet k m with
    | some v => rfl
    | none => exact absurd ht (mapGet_eq_none_iff.mp h t)

theorem mapGet_append {k : Name} {m m' : TensorMap} :
    mapGet k (m ++ m') = (mapGet k m).or (mapGet k m') := by
  induction m with
  | nil => rfl
  | cons e rest ih =>
    obtain ⟨k', v'⟩ := e
    by_cases he : k' = k
    · simp [mapGet_cons, if_pos he]
    · simp only [List.cons_append, mapGet_cons, if_neg he]
      exact ih

theorem insertKV_eq_append {m : TensorMap} {k : Name} {v : Tensor}
    (h : ∀ e ∈ m, e.1 ≠ k) : insertKV m k v = m ++ [(k, v)] := by
  unfold insertKV
  congr 1
  exact List.filter_eq_self.mpr (fun e he => by simpa using h e he)

/-! Lemmas about the lexicographic order `nameLe`. -/

theorem nameLe_refl : ∀ (a : Name), nameLe a a = true
  | [] => rfl
  | c :: s => by simp [nameLe, nameLe_refl s]

theorem nameLe_total : ∀ (a b : Name), nameLe a b = true ∨ nameLe b a = true
  | [], _ => Or.inl rfl
  | _ :: _, [] => Or.inr rfl
  | a :: s, b :: t => by
    by_cases hab : a = b
    · subst hab
      simpa [nameLe] using nameLe_total s t
    · rcases lt_or_gt_of_ne hab with h | h
      · exact Or.inl (by simp [nameLe, hab, h])
      · exact Or.inr (by simp [nameLe, Ne.symm hab, not_lt_of_gt h, h])

theorem nameLe_trans : ∀ {a b c : Name},
    nameLe a b = true → nameLe b c = true → nameLe a c = true
  | [], _, _, _, _ => rfl
  | _ :: _, [], _, h, _ => by simp [nameLe] at h
  | _ :: _, _ :: _, [], _, h => by simp [nameLe] at h
  | a :: s, b :: t, c :: u, h₁, h₂ => by
    by_cases hab : a = b <;> by_cases hbc : b = c
    · subst hab; subst hbc
      simp only [nameLe, if_pos rfl] at h₁ h₂ ⊢
      exact nameLe_trans h₁ h₂
    · subst hab
      simp only [nameLe, if_neg hbc] at h₂ ⊢
      exact h₂
    · subst hbc
      simp only [nameLe, if_neg hab] at h₁ ⊢
      exact h₁
    · simp only [nameLe, if_neg hab, if_neg hbc, decide_eq_true_eq] at h₁ h₂
      have hac : a < c := lt_trans h₁ h₂
      simp [nameLe, ne_of_lt hac, hac]

theorem nameLe_antisymm : ∀ {a b : Name}, nameLe a b = true → nameLe b a = true → a = b
  | [], [], _, _ => rfl
  | [], _ :: _, _, h => by simp [nameLe] at h
  | _ :: _, [], h, _ => by simp [nameLe] at h
  | a :: s, b :: t, h₁, h₂ => by
    by_cases hab : a = b
    · subst hab
      simp only [nameLe, if_pos rfl] at h₁ h₂
      rw [nameLe_antisymm h₁ h₂]
    · simp only [nameLe, if_neg hab, if_neg (Ne.symm hab), decide_eq_true_eq] at h₁ h₂
      exact absurd h₂ (not_lt_of_gt h₁)

/-! Lemmas about `containsSub`. -/

theorem containsSub_iff {pat : Name} : ∀ {s : Name},
    containsSub pat s = true ↔ ∃ q r, s = q ++ (pat ++ r)
  | [] => by
    simp only [containsSub, List.isEmpty_iff]
    constructor
    · intro h
      exact ⟨[], [], by simp [h]⟩
    · intro ⟨q, r, h⟩
      rcases List.append_eq_nil.mp h.symm with ⟨_, h₂⟩
      exact (List.append_eq_nil.mp h₂).1
  | c :: rest => by
    simp only [containsSub, Bool.or_eq_true]
    constructor
    · intro h
      rcases h with h | h
      · rcases List.isPrefixOf_iff_prefix.mp h with ⟨r, hr⟩
        exact ⟨[], r, by simp [hr.symm]⟩
      · rcases containsSub_iff.mp h with ⟨q, r, hqr⟩
        exact ⟨c :: q, r, by simp [hqr]⟩
    · intro ⟨q, r, hqr⟩
      cases q with
      | nil =>
        left
        exact List.isPrefixOf_iff_prefix.mpr ⟨r, by simpa using hqr.symm⟩
      | cons d q' =>
        right
        refine containsSub_iff.mpr ⟨q', r, ?_⟩
        simpa using (List.cons_eq_cons.mp hqr).2

theorem containsSub_append_self (pat q : Name) : containsSub pat (q ++ pat) = true :=
  containsSub_iff.mpr ⟨q, [], by simp⟩

/-! Lemmas about `removeAll`, suffixes and key well-formedness. -/

theorem removeAll_nil (pat : Name) : removeAll pat [] = [] := by
  rw [removeAll]

theorem removeAll_cons_pos {pat : Name} {c : Char} {rest : Name}
    (hne : pat ≠ []) (hp : pat.isPrefixOf (c :: rest) = true) :
    removeAll pat (c :: rest) = removeAll pat (rest.drop (pat.length - 1)) := by
  rw [removeAll]
  rw [if_pos (by simp [hp, List.isEmpty_iff, hne])]

theorem removeAll_cons_neg {pat : Name} {c : Char} {rest : Name}
    (hp : pat.isPrefixOf (c :: rest) = false) :
    removeAll pat (c :: rest) = c :: removeAll pat rest := by
  rw [removeAll]
  rw [if_neg (by simp [hp])]

theorem removeAll_append_self {pat : Name} (hne : pat ≠ []) :
    ∀ {p : Name}, (∀ i < p.length, ¬ pat <+: ((p ++ pat).drop i)) →
      removeAll pat (p ++ pat) = p
  | [], _ => by
    obtain ⟨c, t, rfl⟩ := List.exists_cons_of_ne_nil hne
    rw [List.nil_append,
      removeAll_cons_pos hne (List.isPrefixOf_iff_prefix.mpr List.prefix_rfl)]
    rw [List.length_cons, Nat.add_sub_cancel, List.drop_length, removeAll_nil]
  | c :: p', hno => by
    have h0 : pat.isPrefixOf ((c :: p') ++ pat) = false := by
      rw [Bool.eq_false_iff]
      intro hp
      exact hno 0 (by simp) (by simpa using List.isPrefixOf_iff_prefix.mp hp)
    show removeAll pat (c :: (p' ++ pat)) = c :: p'
    have h0' : pat.isPrefixOf (c :: (p' ++ pat)) = false := by
      rw [← List.cons_append]
      exact h0
    rw [removeAll_cons_neg h0']
    have ih := removeAll_append_self hne (p := p') (fun i hi => by
      have := hno (i + 1) (by simpa using hi)
      simpa [List.drop_succ_cons] using this)
    rw [ih]

/-- The part of a key before a suffix: `base_name` when the suffix is the
A/B marker. -/
def dropSuffix (pat s : Name) : Name := s.take (s.length - pat.length)

theorem dropSuffix_append (pat p : Name) : dropSuffix pat (p ++ pat) = p := by
  unfold dropSuffix
  rw [List.length_append, Nat.add_sub_cancel]
  exact List.take_left p pat

theorem append_suffix_ne {s₁ s₂ : Name} (hlen : s₁.length = s₂.length)
    (hne : s₁ ≠ s₂) (p q : Name) : p ++ s₁ ≠ q ++ s₂ := by
  intro h
  exact hne (List.append_inj' h hlen).2

theorem loraA_length : loraA.length = 14 := by decide

theorem loraB_length : loraB.length = 14 := by decide

theorem loraA_ne_loraB : loraA ≠ loraB := by decide

theorem loraA_ne_nil : loraA ≠ [] := by decide

theorem appendA_ne_appendB (p q : Name) : p ++ loraA ≠ q ++ loraB :=
  append_suffix_ne (loraA_length.trans loraB_length.symm) loraA_ne_loraB p q

/-- PEFT well-formedness of a key: the A marker `".lora_A.weight"`, when it
occurs at all, occurs exactly once, as a suffix. -/
def wfA (k : Name) : Bool :=
  !containsSub loraA k ||
    (loraA.isSuffixOf k &&
      (List.range (k.length - loraA.length)).all (fun i => !loraA.isPrefixOf (k.drop i)))

theorem wfA_spec {k : Name} (hwf : wfA k = true) (hc : containsSub loraA k = true) :
    k = dropSuffix loraA k ++ loraA ∧ removeAll loraA k = dropSuffix loraA k := by
  unfold wfA at hwf
  rw [Bool.or_eq_true, Bool.not_eq_true', Bool.and_eq_true] at hwf
  rcases hwf with hwf | ⟨hsuf, hall⟩
  · rw [hc] at hwf
    exact absurd hwf (by simp)
  · obtain ⟨p, hp⟩ := List.isSuffixOf_iff_suffix.mp hsuf
    have hdrop : dropSuffix loraA k = p := by
      rw [hp.symm]
      exact dropSuffix_append loraA p
    have hplen : p.length = k.length - loraA.length := by
      rw [← hp, List.length_append]
      omega
    have hno : ∀ i < p.length, ¬ loraA <+: ((p ++ loraA).drop i) := by
      intro i hi hpre
      have hmem : i ∈ List.range (k.length - loraA.length) :=
        List.mem_range.mpr (hplen ▸ hi)
      have := List.all_eq_true.mp hall i hmem
      rw [Bool.not_eq_eq_eq_not, Bool.not_true, Bool.eq_false_iff] at this
      rw [hp] at hpre
      exact this (List.isPrefixOf_iff_prefix.mpr hpre)
    refine ⟨by rw [hdrop]; exact hp.symm, ?_⟩
    rw [hdrop, hp.symm]
    exact removeAll_append_self loraA_ne_nil hno

theorem wf_key_form {k : Name} (hwf : wfA k = true) (hc : containsSub loraA k = true) :
    ∀ q, k ≠ q ++ loraB := by
  intro q hq
  exact appendA_ne_appendB (dropSuffix loraA k) q ((wfA_spec hwf hc).1.symm.trans hq)

theorem suffix_A_not_B {k : Name} (hA : loraA <:+ k) : ¬ loraB <:+ k := by
  intro hB
  obtain ⟨p, hp⟩ := hA
  obtain ⟨q, hq⟩ := hB
  exact appendA_ne_appendB p q (hp.trans hq.symm)

/-! The canonical, order-independent description of the pair extractor. -/

/-- What one source entry contributes when the `processed_keys` check never
fires: for a key containing the A marker, the recorded pair when the looked-up
B counterpart exists. -/
def pairOf (m : TensorMap) (e : Name × Tensor) : Option (Name × Tensor × Tensor) :=
  if containsSub loraA e.1 = true then
    match mapGet (removeAll loraA e.1 ++ loraB) m with
    | some b => some (removeAll loraA e.1, e.2, b)
    | none => none
  else none

theorem extractStep_skip {m : TensorMap} {st : ExtractSt} {e : Name × Tensor}
    (hc : containsSub loraA e.1 = false) : extractStep m st e = st := by
  unfold extractStep
  rw [hc]
  simp

theorem extractStep_blocked {m : TensorMap} {st : ExtractSt} {e : Name × Tensor}
    (hp : e.1 ∈ st.processed) : extractStep m st e = st := by
  unfold extractStep
  rw [decide_eq_true hp]
  simp

theorem extractStep_hit {m : TensorMap} {st : ExtractSt} {e : Name × Tensor} {b : Tensor}
    (hc : containsSub loraA e.1 = true) (hp : e.1 ∉ st.processed)
    (hb : mapGet (removeAll loraA e.1 ++ loraB) m = some b) :
    extractStep m st e =
      ⟨st.pairs ++ [(removeAll loraA e.1, e.2, b)],
        st.processed ++ [e.1, removeAll loraA e.1 ++ loraB]⟩ := by
  unfold extractStep
  rw [hc, hb]
  simp [hp]

theorem extractStep_miss {m : TensorMap} {st : ExtractSt} {e : Name × Tensor}
    (hb : mapGet (removeAll loraA e.1 ++ loraB) m = none) : extractStep m st e = st := by
  unfold extractStep
  rw [hb]
  split
  · rfl
  · rfl

theorem extractStep_congr {m₁ m₂ : TensorMap} (st : ExtractSt) (e : Name × Tensor)
    (h : ∀ q, mapGet (q ++ loraB) m₁ = mapGet (q ++ loraB) m₂) :
    extractStep m₁ st e = extractStep m₂ st e := by
  unfold extractStep
  rw [h (removeAll loraA e.1)]

theorem extract_go (m : TensorMap) :
    ∀ (l : List (Name × Tensor)) (st : ExtractSt),
      (∀ e ∈ l, containsSub loraA e.1 = true → ∀ q, e.1 ≠ q ++ loraB) →
      (l.map Prod.fst).Nodup →
      (∀ n ∈ st.processed, (∃ q, n = q ++ loraB) ∨ ∀ t, (n, t) ∉ l) →
      (l.foldl (extractStep m) st).pairs = st.pairs ++ l.filterMap (pairOf m)
  | [], st, _, _, _ => by simp
  | e :: l', st, hnb, hnd, hinv => by
    rw [List.foldl_cons, List.filterMap_cons]
    rw [List.map_cons, List.nodup_cons] at hnd
    have hinv' : ∀ n ∈ st.processed, (∃ q, n = q ++ loraB) ∨ ∀ t, (n, t) ∉ l' := by
      intro n hn
      rcases hinv n hn with h | h
      · exact Or.inl h
      · exact Or.inr (fun t ht => h t (List.mem_cons_of_mem _ ht))
    by_cases hc : containsSub loraA e.1 = true
    · have hnotproc : e.1 ∉ st.processed := by
        intro hmem
        rcases hinv e.1 hmem with ⟨q, hq⟩ | hnot
        · exact hnb e (List.mem_cons_self _ _) hc q hq
        · exact hnot e.2 (by simp)
      cases hb : mapGet (removeAll loraA e.1 ++ loraB) m with
      | some b =>
        rw [extractStep_hit hc hnotproc hb]
        have hpair : pairOf m e = some (removeAll loraA e.1, e.2, b) := by
          simp [pairOf, hc, hb]
        rw [hpair]
        have ih := extract_go m l'
          ⟨st.pairs ++ [(removeAll loraA e.1, e.2, b)],
            st.processed ++ [e.1, removeAll loraA e.1 ++ loraB]⟩
          (fun e' he' => hnb e' (List.mem_cons_of_mem _ he')) hnd.2 (by
            intro n hn
            rcases List.mem_append.mp hn with hn | hn
            · rcases hinv' n hn with h | h
              · exact Or.inl h
              · exact Or.inr h
            · rcases List.mem_cons.mp hn with hn | hn
              · subst hn
                refine Or.inr (fun t ht => ?_)
                have : (e.1, t).1 ∈ l'.map Prod.fst := List.mem_map_of_mem Prod.fst ht
                exact hnd.1 this
              · rcases List.mem_cons.mp hn with hn | hn
                · subst hn
                  exact Or.inl ⟨removeAll loraA e.1, rfl⟩
                · simp at hn)
        rw [ih]
        simp
      | none =>
        rw [extractStep_miss hb]
        have hpair : pairOf m e = none := by
          simp [pairOf, hc, hb]
        rw [hpair]
        exact extract_go m l' st (fun e' he' => hnb e' (List.mem_cons_of_mem _ he'))
          hnd.2 hinv'
    · rw [extractStep_skip (Bool.eq_false_iff.mpr hc)]
      have hpair : pairOf m e = none := by
        simp [pairOf, hc]
      rw [hpair]
      exact extract_go m l' st (fun e' he' => hnb e' (List.mem_cons_of_mem _ he'))
        hnd.2 hinv'

theorem extract_eq_filterMap {m : TensorMap}
    (hnb : ∀ e ∈ m, containsSub loraA e.1 = true → ∀ q, e.1 ≠ q ++ loraB)
    (hnd : (m.map Prod.fst).Nodup) :
    extractPairs m = m.filterMap (pairOf m) := by
  unfold extractPairs
  rw [extract_go m m ⟨[], []⟩ hnb hnd (by simp)]
  simp

/-- Provenance of an extracted pair: its base comes from a marker-bearing key
of the source map, its A factor is that key's tensor, verbatim, and its B
factor is the looked-up tensor, verbatim. -/
def soundPair (m : TensorMap) (pr : Name × Tensor × Tensor) : Prop :=
  ∃ e ∈ m, containsSub loraA e.1 = true ∧ pr.1 = removeAll loraA e.1 ∧
    pr.2.1 = e.2 ∧ mapGet (pr.1 ++ loraB) m = some pr.2.2

theorem extract_sound_go (m : TensorMap) :
    ∀ (l : List (Name × Tensor)) (st : ExtractSt),
      (∀ pr ∈ st.pairs, soundPair m pr) → (∀ e ∈ l, e ∈ m) →
      ∀ pr ∈ (l.foldl (extractStep m) st).pairs, soundPair m pr
  | [], st, hst, _, pr, hpr => hst pr hpr
  | e :: l', st, hst, hl, pr, hpr => by
    rw [List.foldl_cons] at hpr
    by_cases hc : containsSub loraA e.1 = true
    · by_cases hproc : e.1 ∈ st.processed
      · rw [extractStep_blocked hproc] at hpr
        exact extract_sound_go m l' st hst (fun e' he' => hl e' (List.mem_cons_of_mem _ he'))
          pr hpr
      · cases hb : mapGet (removeAll loraA e.1 ++ loraB) m with
        | some b =>
          rw [extractStep_hit hc hproc hb] at hpr
          refine extract_sound_go m l' _ ?_ (fun e' he' => hl e' (List.mem_cons_of_mem _ he'))
            pr hpr
          intro pr' hpr'
          rcases List.mem_append.mp hpr' with h | h
          · exact hst pr' h
          · rcases List.mem_singleton.mp h with rfl
            exact ⟨e, hl e (List.mem_cons_self _ _), hc, rfl, rfl, hb⟩
        | none =>
          rw [extractStep_miss hb] at hpr
          exact extract_sound_go m l' st hst
            (fun e' he' => hl e' (List.mem_cons_of_mem _ he')) pr hpr
    · rw [extractStep_skip (Bool.eq_false_iff.mpr hc)] at hpr
      exact extract_sound_go m l' st hst (fun e' he' => hl e' (List.mem_cons_of_mem _ he'))
        pr hpr

theorem extract_sound {m : TensorMap} : ∀ pr ∈ extractPairs m, soundPair m pr :=
  extract_sound_go m m ⟨[], []⟩ (by simp) (fun _ he => he)

/-! Irrelevant keys: entries bearing neither marker contribute nothing. -/

/-- The entries bearing the A or the B marker as a substring. -/
def keepAB (e : Name × Tensor) : Bool :=
  containsSub loraA e.1 || containsSub loraB e.1

theorem foldl_extractStep_filter (m' : TensorMap) (p : Name × Tensor → Bool) :
    ∀ (l : List (Name × Tensor)) (st : ExtractSt),
      (∀ e ∈ l, p e = false → containsSub loraA e.1 = false) →
      (l.filter p).foldl (extractStep m') st = l.foldl (extractStep m') st
  | [], _, _ => rfl
  | e :: l', st, h => by
    rw [List.filter_cons, List.foldl_cons]
    by_cases hpe : p e = true
    · rw [if_pos hpe, List.foldl_cons]
      exact foldl_extractStep_filter m' p l' (extractStep m' st e)
        (fun e' he' => h e' (List.mem_cons_of_mem _ he'))
    · rw [if_neg hpe]
      have hskip : extractStep m' st e = st :=
        extractStep_skip (h e (List.mem_cons_self _ _) (Bool.eq_false_iff.mpr hpe))
      rw [hskip]
      exact foldl_extractStep_filter m' p l' st
        (fun e' he' => h e' (List.mem_cons_of_mem _ he'))

theorem extract_filterAB (m : TensorMap) :
    extractPairs (m.filter keepAB) = extractPairs m := by
  unfold extractPairs
  have hstep : extractStep (m.filter keepAB) = extractStep m := by
    funext st e
    refine extractStep_congr st e (fun q => ?_)
    refine mapGet_filter_of_keep (fun t _ => ?_)
    unfold keepAB
    rw [containsSub_append_self loraB q]
    simp
  rw [hstep,
    foldl_extractStep_filter m keepAB m ⟨[], []⟩ (fun e _ hfe => by
      unfold keepAB at hfe
      exact (Bool.or_eq_false_iff.mp hfe).1)]

/-! Decimal formatting of indices is injective. -/

/-- Value of a decimal digit string, for inverting `natDigits`. -/
def digitsVal (l : List Char) : Nat := l.foldl (fun a c => 10 * a + (c.toNat - 48)) 0

theorem digit_char_toNat {d : Nat} (h : d < 10) : (Char.ofNat (48 + d)).toNat = 48 + d := by
  interval_cases d <;> decide

theorem digitsVal_append_digit (l : List Char) (c : Char) :
    digitsVal (l ++ [c]) = 10 * digitsVal l + (c.toNat - 48) := by
  unfold digitsVal
  rw [List.foldl_append]
  rfl

theorem digitsVal_natDigits (n : Nat) : digitsVal (natDigits n) = n := by
  induction n using Nat.strong_induction_on with
  | _ n ih =>
    rw [natDigits]
    by_cases h : n < 10
    · rw [if_pos h]
      show 10 * 0 + ((Char.ofNat (48 + n)).toNat - 48) = n
      rw [digit_char_toNat h]
      omega
    · rw [if_neg h, digitsVal_append_digit,
        ih (n / 10) (Nat.div_lt_self (by omega) (by omega)),
        digit_char_toNat (Nat.mod_lt n (by omega))]
      omega

theorem natDigits_inj {i j : Nat} (h : natDigits i = natDigits j) : i = j := by
  have hv := congrArg digitsVal h
  rwa [digitsVal_natDigits, digitsVal_natDigits] at hv

/-! Shape of the emitted names. -/

theorem aNm_inj {pre : Name} {i j : Nat} (h : aNm pre i = aNm pre j) : i = j := by
  unfold aNm at h
  have h₁ := List.append_cancel_left h
  rw [List.cons_inj_right, List.cons_inj_right] at h₁
  have hlen : (natDigits i).length = (natDigits j).length := by
    have := congrArg List.length h₁
    simp only [List.length_append] at this
    omega
  exact natDigits_inj (List.append_inj h₁ hlen).1

theorem bNm_inj {pre : Name} {i j : Nat} (h : bNm pre i = bNm pre j) : i = j := by
  unfold bNm at h
  have h₁ := List.append_cancel_left h
  rw [List.cons_inj_right, List.cons_inj_right] at h₁
  have hlen : (natDigits i).length = (natDigits j).length := by
    have := congrArg List.length h₁
    simp only [List.length_append] at this
    omega
  exact natDigits_inj (List.append_inj h₁ hlen).1

theorem aNm_ne_bNm (pre : Name) (i j : Nat) : aNm pre i ≠ bNm pre j := by
  intro h
  unfold aNm bNm at h
  have h₁ := List.append_cancel_left h
  rw [List.cons_inj_right] at h₁
  exact absurd (List.cons_eq_cons.mp h₁).1 (by decide)

theorem take_aNm_dot (pre : Name) (i : Nat) :
    (aNm pre i).take (pre.length + 1) = pre ++ ['.'] := by
  unfold aNm
  rw [List.take_append_eq_append_take, List.take_of_length_le (by omega),
    Nat.add_sub_cancel_left]
  rfl

theorem take_bNm_dot (pre : Name) (i : Nat) :
    (bNm pre i).take (pre.length + 1) = pre ++ ['.'] := by
  unfold bNm
  rw [List.take_append_eq_append_take, List.take_of_length_le (by omega),
    Nat.add_sub_cancel_left]
  rfl

theorem take_aNm_of_le (pre : Name) (i : Nat) {n : Nat} (h : n ≤ pre.length) :
    (aNm pre i).take n = pre.take n := by
  unfold aNm
  rw [List.take_append_eq_append_take, Nat.sub_eq_zero_of_le h, List.take_zero,
    List.append_nil]

theorem take_bNm_of_le (pre : Name) (i : Nat) {n : Nat} (h : n ≤ pre.length) :
    (bNm pre i).take n = pre.take n := by
  unfold bNm
  rw [List.take_append_eq_append_take, Nat.sub_eq_zero_of_le h, List.take_zero,
    List.append_nil]

theorem ne_of_take_ne {l₁ l₂ : Name} (n : Nat) (h : l₁.take n ≠ l₂.take n) : l₁ ≠ l₂ :=
  fun he => h (he ▸ rfl)

/-! The emission loop as a plain append of freshly-named entries. -/

/-- The entries emitted for a group, indices starting at `n`: for the pair at
index `j`, the entries `(<pre>.a<j>.weight, factor_a)` and
`(<pre>.b<j>.weight, factor_b)`. -/
def groupOutFrom (pre : Name) (n : Nat) (ps : List (Name × Tensor × Tensor)) : TensorMap :=
  (List.enumFrom n ps).flatMap
    (fun ip => [(aNm pre ip.1, ip.2.2.1), (bNm pre ip.1, ip.2.2.2)])

/-- The entries emitted for a group, indices starting at 0. -/
def groupOut (pre : Name) (ps : List (Name × Tensor × Tensor)) : TensorMap :=
  groupOutFrom pre 0 ps

theorem groupOutFrom_nil (pre : Name) (n : Nat) : groupOutFrom pre n [] = [] := rfl

theorem groupOutFrom_cons (pre : Name) (n : Nat) (p : Name × Tensor × Tensor)
    (ps : List (Name × Tensor × Tensor)) :
    groupOutFrom pre n (p :: ps) =
      (aNm pre n, p.2.1) :: (bNm pre n, p.2.2) :: groupOutFrom pre (n + 1) ps := by
  unfold groupOutFrom
  rw [List.enumFrom_cons]
  rfl

theorem mem_groupOutFrom {pre : Name} {n : Nat} :
    ∀ {ps : List (Name × Tensor × Tensor)} {e : Name × Tensor},
      e ∈ groupOutFrom pre n ps →
      ∃ j p, n ≤ j ∧ p ∈ ps ∧ (e = (aNm pre j, p.2.1) ∨ e = (bNm pre j, p.2.2))
  | [], e, he => by simp [groupOutFrom_nil] at he
  | p :: ps', e, he => by
    rw [groupOutFrom_cons] at he
    rcases List.mem_cons.mp he with he | he
    · exact ⟨n, p, le_rfl, List.mem_cons_self _ _, Or.inl he⟩
    · rcases List.mem_cons.mp he with he | he
      · exact ⟨n, p, le_rfl, List.mem_cons_self _ _, Or.inr he⟩
      · obtain ⟨j, q, hj, hq, hor⟩ := mem_groupOutFrom he
        exact ⟨j, q, by omega, List.mem_cons_of_mem _ hq, hor⟩

theorem emitGroup_go (pre : Name) :
    ∀ (ps : List (Name × Tensor × Tensor)) (n : Nat) (ct : TensorMap),
      (∀ e ∈ ct, ∀ j, n ≤ j → e.1 ≠ aNm pre j ∧ e.1 ≠ bNm pre j) →
      (List.enumFrom n ps).foldl
        (fun acc ip => insertKV (insertKV acc (aNm pre ip.1) ip.2.2.1) (bNm pre ip.1) ip.2.2.2)
        ct = ct ++ groupOutFrom pre n ps
  | [], n, ct, _ => by simp [groupOutFrom_nil]
  | p :: ps', n, ct, hf => by
    rw [List.enumFrom_cons, List.foldl_cons, groupOutFrom_cons]
    have h1 : insertKV ct (aNm pre n) p.2.1 = ct ++ [(aNm pre n, p.2.1)] :=
      insertKV_eq_append (fun e he => (hf e he n le_rfl).1)
    have h2 : insertKV (ct ++ [(aNm pre n, p.2.1)]) (bNm pre n) p.2.2 =
        (ct ++ [(aNm pre n, p.2.1)]) ++ [(bNm pre n, p.2.2)] := by
      refine insertKV_eq_append (fun e he => ?_)
      rcases List.mem_append.mp he with he | he
      · exact (hf e he n le_rfl).2
      · rcases List.mem_singleton.mp he with rfl
        exact aNm_ne_bNm pre n n
    rw [h1, h2]
    have hf' : ∀ e ∈ (ct ++ [(aNm pre n, p.2.1)]) ++ [(bNm pre n, p.2.2)],
        ∀ j, n + 1 ≤ j → e.1 ≠ aNm pre j ∧ e.1 ≠ bNm pre j := by
      intro e he j hj
      rcases List.mem_append.mp he with he | he
      · rcases List.mem_append.mp he with he | he
        · exact hf e he j (by omega)
        · rcases List.mem_singleton.mp he with rfl
          refine ⟨fun h => ?_, aNm_ne_bNm pre n j⟩
          have := aNm_inj h
          omega
      · rcases List.mem_singleton.mp he with rfl
        refine ⟨fun h => (aNm_ne_bNm pre j n h.symm), fun h => ?_⟩
        have := bNm_inj h
        omega
    rw [emitGroup_go pre ps' (n + 1) _ hf']
    simp

theorem emitGroup_eq {pre : Name} {ps : List (Name × Tensor × Tensor)} {ct : TensorMap}
    (hf : ∀ e ∈ ct, ∀ j, e.1 ≠ aNm pre j ∧ e.1 ≠ bNm pre j) :
    emitGroup pre ps ct = ct ++ groupOut pre ps := by
  unfold emitGroup groupOut
  rw [List.enum]
  exact emitGroup_go pre ps 0 ct (fun e he j _ => hf e he j)

theorem emitGroup_nil_ct (pre : Name) (ps : List (Name × Tensor × Tensor)) :
    emitGroup pre ps [] = groupOut pre ps := by
  rw [emitGroup_eq (fun e he => by simp at he)]
  rfl

theorem groupOutFrom_keys_nodup (pre : Name) :
    ∀ (ps : List (Name × Tensor × Tensor)) (n : Nat),
      ((groupOutFrom pre n ps).map Prod.fst).Nodup
  | [], _ => by simp [groupOutFrom_nil]
  | p :: ps', n => by
    rw [groupOutFrom_cons, List.map_cons, List.map_cons, List.nodup_cons, List.nodup_cons]
    refine ⟨?_, ?_, groupOutFrom_keys_nodup pre ps' (n + 1)⟩
    · rw [List.mem_cons]
      rintro (h | h)
      · exact aNm_ne_bNm pre n n h
      · rcases List.mem_map.mp h with ⟨e, he, hkey⟩
        obtain ⟨j, q, hj, _, hor⟩ := mem_groupOutFrom he
        rcases hor with rfl | rfl
        · have := aNm_inj hkey.symm
          omega
        · exact aNm_ne_bNm pre n j hkey.symm
    · intro h
      rcases List.mem_map.mp h with ⟨e, he, hkey⟩
      obtain ⟨j, q, hj, _, hor⟩ := mem_groupOutFrom he
      rcases hor with rfl | rfl
      · exact aNm_ne_bNm pre j n hkey
      · have := bNm_inj hkey.symm
        omega

/-! Sorting by base name is deterministic on pair multisets with distinct
bases. -/

theorem sorted_bases_eq :
    ∀ {l₁ l₂ : List (Name × Tensor × Tensor)}, l₁.Perm l₂ →
      List.Pairwise (fun p q => nameLe p.1 q.1 = true) l₁ →
      List.Pairwise (fun p q => nameLe p.1 q.1 = true) l₂ →
      (l₁.map (fun pr => pr.1)).Nodup → l₁ = l₂
  | [], l₂, hp, _, _, _ => (hp.symm.eq_nil).symm
  | a :: t₁, l₂, hp, hs₁, hs₂, hnd => by
    cases l₂ with
    | nil => exact absurd hp.eq_nil (by simp)
    | cons b t₂ =>
      have hab : a = b := by
        by_contra hne
        have ha2 : a ∈ t₂ := by
          rcases List.mem_cons.mp (hp.mem_iff.mp (List.mem_cons_self _ _)) with h | h
          · exact absurd h hne
          · exact h
        have hb1 : b ∈ t₁ := by
          rcases List.mem_cons.mp (hp.mem_iff.mpr (List.mem_cons_self _ _)) with h | h
          · exact absurd h.symm hne
          · exact h
        have hle₁ : nameLe a.1 b.1 = true := (List.pairwise_cons.mp hs₁).1 b hb1
        have hle₂ : nameLe b.1 a.1 = true := (List.pairwise_cons.mp hs₂).1 a ha2
        have heq : a.1 = b.1 := nameLe_antisymm hle₁ hle₂
        rw [List.map_cons, List.nodup_cons] at hnd
        have : b.1 ∈ t₁.map (fun pr => pr.1) := List.mem_map_of_mem _ hb1
        rw [← heq] at this
        exact hnd.1 this
      subst hab
      have ht : t₁ = t₂ := by
        refine sorted_bases_eq hp.cons_inv (List.pairwise_cons.mp hs₁).2
          (List.pairwise_cons.mp hs₂).2 ?_
        rw [List.map_cons, List.nodup_cons] at hnd
        exact hnd.2
      rw [ht]

theorem sortByBase_sorted (ps : List (Name × Tensor × Tensor)) :
    List.Pairwise (fun p q => nameLe p.1 q.1 = true) (sortByBase ps) := by
  unfold sortByBase
  have htr : ∀ (a b c : Name × Tensor × Tensor),
      nameLe a.1 b.1 = true → nameLe b.1 c.1 = true → nameLe a.1 c.1 = true :=
    fun _ _ _ h1 h2 => nameLe_trans h1 h2
  have hto : ∀ (a b : Name × Tensor × Tensor),
      (nameLe a.1 b.1 || nameLe b.1 a.1) = true := by
    intro a b
    rcases nameLe_total a.1 b.1 with h | h <;> simp [h]
  exact @List.sorted_mergeSort _ (fun p q => nameLe p.1 q.1) htr hto ps

theorem sortByBase_perm (ps : List (Name × Tensor × Tensor)) : (sortByBase ps).Perm ps :=
  List.mergeSort_perm ps _

theorem sortByBase_eq_of_perm {ps₁ ps₂ : List (Name × Tensor × Tensor)}
    (hp : ps₁.Perm ps₂) (hnd : (ps₁.map (fun pr => pr.1)).Nodup) :
    sortByBase ps₁ = sortByBase ps₂ :=
  sorted_bases_eq ((sortByBase_perm ps₁).trans (hp.trans (sortByBase_perm ps₂).symm))
    (sortByBase_sorted ps₁) (sortByBase_sorted ps₂)
    (((sortByBase_perm ps₁).map (fun pr => pr.1)).nodup_iff.mpr hnd)

/-! Distinct bases of the extracted pairs, for well-formed inputs. -/

theorem pairOf_some_base {m : TensorMap} {e : Name × Tensor} {pr : Name × Tensor × Tensor}
    (h : pairOf m e = some pr) :
    containsSub loraA e.1 = true ∧ pr.1 = removeAll loraA e.1 := by
  unfold pairOf at h
  by_cases hc : containsSub loraA e.1 = true
  · rw [if_pos hc] at h
    cases hb : mapGet (removeAll loraA e.1 ++ loraB) m with
    | some b =>
      rw [hb] at h
      injection h with h'
      rw [← h']
      exact ⟨hc, rfl⟩
    | none =>
      rw [hb] at h
      cases h
  · rw [if_neg hc] at h
    cases h

theorem bases_nodup_go (m : TensorMap) :
    ∀ (l : List (Name × Tensor)),
      (∀ e ∈ l, wfA e.1 = true) → (l.map Prod.fst).Nodup →
      ((l.filterMap (pairOf m)).map (fun pr => pr.1)).Nodup
  | [], _, _ => by simp
  | e :: l', hwf, hnd => by
    rw [List.filterMap_cons]
    rw [List.map_cons, List.nodup_cons] at hnd
    cases hp : pairOf m e with
    | none =>
      exact bases_nodup_go m l' (fun e' he' => hwf e' (List.mem_cons_of_mem _ he')) hnd.2
    | some pr =>
      rw [List.map_cons, List.nodup_cons]
      refine ⟨?_, bases_nodup_go m l'
        (fun e' he' => hwf e' (List.mem_cons_of_mem _ he')) hnd.2⟩
      intro hmem
      rcases List.mem_map.mp hmem with ⟨pr', hpr', hbase⟩
      rcases List.mem_filterMap.mp hpr' with ⟨e', he', hp'⟩
      obtain ⟨hc, hbase1⟩ := pairOf_some_base hp
      obtain ⟨hc', hbase1'⟩ := pairOf_some_base hp'
      have hs := wfA_spec (hwf e (List.mem_cons_self _ _)) hc
      have hs' := wfA_spec (hwf e' (List.mem_cons_of_mem _ he')) hc'
      have hkeyeq : e.1 = e'.1 := by
        rw [hs.1, hs'.1, ← hs.2, ← hs'.2, ← hbase1, ← hbase1', hbase]
      have hmem2 : e'.1 ∈ l'.map Prod.fst := List.mem_map_of_mem Prod.fst he'
      rw [← hkeyeq] at hmem2
      exact hnd.1 hmem2

theorem wf_extract_eq_filterMap {m : TensorMap}
    (hwf : ∀ e ∈ m, wfA e.1 = true) (hnd : (m.map Prod.fst).Nodup) :
    extractPairs m = m.filterMap (pairOf m) :=
  extract_eq_filterMap (fun e he hc q => wf_key_form (hwf e he) hc q) hnd

theorem extract_bases_nodup {m : TensorMap}
    (hwf : ∀ e ∈ m, wfA e.1 = true) (hnd : (m.map Prod.fst).Nodup) :
    ((extractPairs m).map (fun pr => pr.1)).Nodup := by
  rw [wf_extract_eq_filterMap hwf hnd]
  exact bases_nodup_go m m hwf hnd

theorem pairOf_congr {m₁ m₂ : TensorMap} (h : ∀ k, mapGet k m₁ = mapGet k m₂)
    (e : Name × Tensor) : pairOf m₁ e = pairOf m₂ e := by
  unfold pairOf
  rw [h (removeAll loraA e.1 ++ loraB)]

theorem extract_perm_of_perm {m₁ m₂ : TensorMap} (hp : m₁.Perm m₂)
    (hwf : ∀ e ∈ m₁, wfA e.1 = true) (hnd : (m₁.map Prod.fst).Nodup) :
    (extractPairs m₁).Perm (extractPairs m₂) := by
  have hnd₂ : (m₂.map Prod.fst).Nodup := ((hp.map Prod.fst).nodup_iff).mp hnd
  have hwf₂ : ∀ e ∈ m₂, wfA e.1 = true := fun e he => hwf e (hp.mem_iff.mpr he)
  rw [wf_extract_eq_filterMap hwf hnd, wf_extract_eq_filterMap hwf₂ hnd₂]
  have hcongr : ∀ e ∈ m₂, pairOf m₂ e = pairOf m₁ e :=
    fun e _ => (pairOf_congr (mapGet_congr_perm hp hnd) e).symm
  rw [List.filterMap_congr hcongr]
  exact List.Perm.filterMap (pairOf m₁) hp

theorem sorted_extract_eq_of_perm {m₁ m₂ : TensorMap} (hp : m₁.Perm m₂)
    (hwf : ∀ e ∈ m₁, wfA e.1 = true) (hnd : (m₁.map Prod.fst).Nodup) :
    sortByBase (extractPairs m₁) = sortByBase (extractPairs m₂) :=
  sortByBase_eq_of_perm (extract_perm_of_perm hp hwf hnd) (extract_bases_nodup hwf hnd)

/-! Keys emitted under distinct fixed prefixes never collide. -/

theorem take_aNm_dot' (pre : Name) (i : Nat) {n : Nat} (h : n = pre.length + 1) :
    (aNm pre i).take n = pre ++ ['.'] := by
  subst h
  exact take_aNm_dot pre i

theorem take_bNm_dot' (pre : Name) (i : Nat) {n : Nat} (h : n = pre.length + 1) :
    (bNm pre i).take n = pre ++ ['.'] := by
  subst h
  exact take_bNm_dot pre i

theorem groupKeys_ne_of_take (n : Nat) (c₁ c₂ : Name) {pre₁ pre₂ : Name}
    (h₁a : ∀ i, (aNm pre₁ i).take n = c₁) (h₁b : ∀ i, (bNm pre₁ i).take n = c₁)
    (h₂a : ∀ i, (aNm pre₂ i).take n = c₂) (h₂b : ∀ i, (bNm pre₂ i).take n = c₂)
    (hne : c₁ ≠ c₂) (i j : Nat) :
    aNm pre₁ i ≠ aNm pre₂ j ∧ aNm pre₁ i ≠ bNm pre₂ j ∧
      bNm pre₁ i ≠ aNm pre₂ j ∧ bNm pre₁ i ≠ bNm pre₂ j :=
  ⟨ne_of_take_ne n (by rw [h₁a i, h₂a j]; exact hne),
    ne_of_take_ne n (by rw [h₁a i, h₂b j]; exact hne),
    ne_of_take_ne n (by rw [h₁b i, h₂a j]; exact hne),
    ne_of_take_ne n (by rw [h₁b i, h₂b j]; exact hne)⟩

theorem keys_ne_llama_csa (i j : Nat) :
    aNm CandleLoraPrefix.Llama.as_str i ≠ aNm CandleLoraPrefix.LlamaCsa.as_str j ∧
      aNm CandleLoraPrefix.Llama.as_str i ≠ bNm CandleLoraPrefix.LlamaCsa.as_str j ∧
      bNm CandleLoraPrefix.Llama.as_str i ≠ aNm CandleLoraPrefix.LlamaCsa.as_str j ∧
      bNm CandleLoraPrefix.Llama.as_str i ≠ bNm CandleLoraPrefix.LlamaCsa.as_str j :=
  groupKeys_ne_of_take 11 "lora_llama.".data "lora_llama_".data
    (fun k => take_aNm_dot' _ k (by decide)) (fun k => take_bNm_dot' _ k (by decide))
    (fun k => (take_aNm_of_le _ k (by decide)).trans (by decide))
    (fun k => (take_bNm_of_le _ k (by decide)).trans (by decide))
    (by decide) i j

theorem keys_ne_llama_block (i j : Nat) :
    aNm CandleLoraPrefix.Llama.as_str i ≠ aNm CandleLoraPrefix.LlamaBlock.as_str j ∧
      aNm CandleLoraPrefix.Llama.as_str i ≠ bNm CandleLoraPrefix.LlamaBlock.as_str j ∧
      bNm CandleLoraPrefix.Llama.as_str i ≠ aNm CandleLoraPrefix.LlamaBlock.as_str j ∧
      bNm CandleLoraPrefix.Llama.as_str i ≠ bNm CandleLoraPrefix.LlamaBlock.as_str j :=
  groupKeys_ne_of_take 11 "lora_llama.".data "lora_llama_".data
    (fun k => take_aNm_dot' _ k (by decide)) (fun k => take_bNm_dot' _ k (by decide))
    (fun k => (take_aNm_of_le _ k (by decide)).trans (by decide))
    (fun k => (take_bNm_of_le _ k (by decide)).trans (by decide))
    (by decide) i j

theorem keys_ne_csa_block (i j : Nat) :
    aNm CandleLoraPrefix.LlamaCsa.as_str i ≠ aNm CandleLoraPrefix.LlamaBlock.as_str j ∧
      aNm CandleLoraPrefix.LlamaCsa.as_str i ≠ bNm CandleLoraPrefix.LlamaBlock.as_str j ∧
      bNm CandleLoraPrefix.LlamaCsa.as_str i ≠ aNm CandleLoraPrefix.LlamaBlock.as_str j ∧
      bNm CandleLoraPrefix.LlamaCsa.as_str i ≠ bNm CandleLoraPrefix.LlamaBlock.as_str j :=
  groupKeys_ne_of_take 12 "lora_llama_c".data "lora_llama_b".data
    (fun k => (take_aNm_of_le _ k (by decide)).trans (by decide))
    (fun k => (take_bNm_of_le _ k (by decide)).trans (by decide))
    (fun k => (take_aNm_of_le _ k (by decide)).trans (by decide))
    (fun k => (take_bNm_of_le _ k (by decide)).trans (by decide))
    (by decide) i j
/-! The typed conversion without dummy injection, as a concatenation of the
three per-class emissions. -/

/-- Canonical form of the typed renamer's output: the three classes emitted in
order, each with an independent zero-based counter under its fixed prefix. -/
def typedCore (m : TensorMap) : TensorMap :=
  groupOut CandleLoraPrefix.Llama.as_str (classGroup CandleLoraPrefix.Llama m) ++
    groupOut CandleLoraPrefix.LlamaCsa.as_str (classGroup CandleLoraPrefix.LlamaCsa m) ++
    groupOut CandleLoraPrefix.LlamaBlock.as_str (classGroup CandleLoraPrefix.LlamaBlock m)

theorem groupOut_key_form {pre : Name} {ps : List (Name × Tensor × Tensor)}
    {e : Name × Tensor} (he : e ∈ groupOut pre ps) :
    ∃ j, e.1 = aNm pre j ∨ e.1 = bNm pre j := by
  obtain ⟨j, p, _, _, hor⟩ := mem_groupOutFrom he
  rcases hor with rfl | rfl
  · exact ⟨j, Or.inl rfl⟩
  · exact ⟨j, Or.inr rfl⟩

theorem typed_chain_eq (gL gC gB : List (Name × Tensor × Tensor)) :
    (let ct1 := if gL.isEmpty then ([] : TensorMap)
      else emitGroup CandleLoraPrefix.Llama.as_str gL []
     let ct2 := if gC.isEmpty then ct1
      else emitGroup CandleLoraPrefix.LlamaCsa.as_str gC ct1
     if gB.isEmpty then ct2 else emitGroup CandleLoraPrefix.LlamaBlock.as_str gB ct2) =
    groupOut CandleLoraPrefix.Llama.as_str gL ++
      groupOut CandleLoraPrefix.LlamaCsa.as_str gC ++
      groupOut CandleLoraPrefix.LlamaBlock.as_str gB := by
  have e1 : (if gL.isEmpty then ([] : TensorMap)
      else emitGroup CandleLoraPrefix.Llama.as_str gL []) =
      groupOut CandleLoraPrefix.Llama.as_str gL := by
    by_cases h : gL.isEmpty
    · rw [if_pos h, List.isEmpty_iff.mp h]
      rfl
    · rw [if_neg h]
      exact emitGroup_nil_ct _ _
  have e2 : (if gC.isEmpty then groupOut CandleLoraPrefix.Llama.as_str gL
      else emitGroup CandleLoraPrefix.LlamaCsa.as_str gC
        (groupOut CandleLoraPrefix.Llama.as_str gL)) =
      groupOut CandleLoraPrefix.Llama.as_str gL ++
        groupOut CandleLoraPrefix.LlamaCsa.as_str gC := by
    by_cases h : gC.isEmpty
    · rw [if_pos h, List.isEmpty_iff.mp h]
      simp [groupOut, groupOutFrom_nil]
    · rw [if_neg h]
      refine emitGroup_eq (fun e he j => ?_)
      obtain ⟨k, hk⟩ := groupOut_key_form he
      rcases hk with hk | hk
      · rw [hk]
        exact ⟨(keys_ne_llama_csa k j).1, (keys_ne_llama_csa k j).2.1⟩
      · rw [hk]
        exact ⟨(keys_ne_llama_csa k j).2.2.1, (keys_ne_llama_csa k j).2.2.2⟩
  show (if gB.isEmpty then
      (if gC.isEmpty then (if gL.isEmpty then ([] : TensorMap)
          else emitGroup CandleLoraPrefix.Llama.as_str gL [])
        else emitGroup CandleLoraPrefix.LlamaCsa.as_str gC
          (if gL.isEmpty then ([] : TensorMap)
            else emitGroup CandleLoraPrefix.Llama.as_str gL []))
      else emitGroup CandleLoraPrefix.LlamaBlock.as_str gB
        (if gC.isEmpty then (if gL.isEmpty then ([] : TensorMap)
            else emitGroup CandleLoraPrefix.Llama.as_str gL [])
          else emitGroup CandleLoraPrefix.LlamaCsa.as_str gC
            (if gL.isEmpty then ([] : TensorMap)
              else emitGroup CandleLoraPrefix.Llama.as_str gL []))) = _
  rw [e1, e2]
  by_cases h : gB.isEmpty
  · rw [if_pos h, List.isEmpty_iff.mp h]
    simp [groupOut, groupOutFrom_nil]
  · rw [if_neg h]
    refine emitGroup_eq (fun e he j => ?_)
    rcases List.mem_append.mp he with he | he
    · obtain ⟨k, hk⟩ := groupOut_key_form he
      rcases hk with hk | hk
      · rw [hk]
        exact ⟨(keys_ne_llama_block k j).1, (keys_ne_llama_block k j).2.1⟩
      · rw [hk]
        exact ⟨(keys_ne_llama_block k j).2.2.1, (keys_ne_llama_block k j).2.2.2⟩
    · obtain ⟨k, hk⟩ := groupOut_key_form he
      rcases hk with hk | hk
      · rw [hk]
        exact ⟨(keys_ne_csa_block k j).1, (keys_ne_csa_block k j).2.1⟩
      · rw [hk]
        exact ⟨(keys_ne_csa_block k j).2.2.1, (keys_ne_csa_block k j).2.2.2⟩

theorem typed_core_eq (m : TensorMap) :
    convert_peft_to_candle_lora_typed m false = typedCore m :=
  typed_chain_eq (classGroup CandleLoraPrefix.Llama m)
    (classGroup CandleLoraPrefix.LlamaCsa m) (classGroup CandleLoraPrefix.LlamaBlock m)

/-! The dummy-injection check `starts_with("lora_llama.")` sees exactly the
EmbeddingOrHead entries. -/

theorem llamaDot_isPrefixOf_aNm (i : Nat) :
    "lora_llama.".data.isPrefixOf (aNm CandleLoraPrefix.Llama.as_str i) = true := by
  rw [List.isPrefixOf_iff_prefix]
  show "lora_llama.".data <+: aNm "lora_llama".data i
  have hsplit : "lora_llama.".data = "lora_llama".data ++ ['.'] := by decide
  rw [hsplit]
  exact ⟨'a' :: (natDigits i ++ ".weight".data), by simp [aNm]⟩

theorem llamaDot_isPrefixOf_bNm (i : Nat) :
    "lora_llama.".data.isPrefixOf (bNm CandleLoraPrefix.Llama.as_str i) = true := by
  rw [List.isPrefixOf_iff_prefix]
  show "lora_llama.".data <+: bNm "lora_llama".data i
  have hsplit : "lora_llama.".data = "lora_llama".data ++ ['.'] := by decide
  rw [hsplit]
  exact ⟨'b' :: (natDigits i ++ ".weight".data), by simp [bNm]⟩

theorem not_llamaDot_of_take11 {k : Name} (h : k.take 11 = "lora_llama_".data) :
    "lora_llama.".data.isPrefixOf k = false := by
  rw [Bool.eq_false_iff]
  intro hp
  have hpre := List.isPrefixOf_iff_prefix.mp hp
  have htake : "lora_llama.".data = k.take 11 := by
    have h11 : ("lora_llama.".data).length = 11 := by decide
    have := List.prefix_iff_eq_take.mp hpre
    rw [h11] at this
    exact this
  rw [h] at htake
  exact absurd htake (by decide)

theorem typedCore_any_llama (m : TensorMap) :
    (typedCore m).any (fun e => "lora_llama.".data.isPrefixOf e.1) =
      !(classGroup CandleLoraPrefix.Llama m).isEmpty := by
  cases hgl : classGroup CandleLoraPrefix.Llama m with
  | nil =>
    unfold typedCore
    rw [hgl]
    have hnil : groupOut CandleLoraPrefix.Llama.as_str [] = [] := rfl
    rw [hnil, List.nil_append, List.isEmpty_nil, Bool.not_true, List.any_append]
    have hC : (groupOut CandleLoraPrefix.LlamaCsa.as_str
        (classGroup CandleLoraPrefix.LlamaCsa m)).any
        (fun e => "lora_llama.".data.isPrefixOf e.1) = false := by
      rw [List.any_eq_false]
      intro e he
      obtain ⟨k, hk⟩ := groupOut_key_form he
      rcases hk with hk | hk <;> rw [hk]
      · exact Bool.eq_false_iff.mp (not_llamaDot_of_take11
          ((take_aNm_of_le CandleLoraPrefix.LlamaCsa.as_str k (by decide)).trans (by decide)))
      · exact Bool.eq_false_iff.mp (not_llamaDot_of_take11
          ((take_bNm_of_le CandleLoraPrefix.LlamaCsa.as_str k (by decide)).trans (by decide)))
    have hB : (groupOut CandleLoraPrefix.LlamaBlock.as_str
        (classGroup CandleLoraPrefix.LlamaBlock m)).any
        (fun e => "lora_llama.".data.isPrefixOf e.1) = false := by
      rw [List.any_eq_false]
      intro e he
      obtain ⟨k, hk⟩ := groupOut_key_form he
      rcases hk with hk | hk <;> rw [hk]
      · exact Bool.eq_false_iff.mp (not_llamaDot_of_take11
          ((take_aNm_of_le CandleLoraPrefix.LlamaBlock.as_str k (by decide)).trans (by decide)))
      · exact Bool.eq_false_iff.mp (not_llamaDot_of_take11
          ((take_bNm_of_le CandleLoraPrefix.LlamaBlock.as_str k (by decide)).trans (by decide)))
    rw [hC, hB]
    rfl
  | cons p rest =>
    rw [List.isEmpty_cons, Bool.not_false]
    rw [List.any_eq_true]
    refine ⟨(aNm CandleLoraPrefix.Llama.as_str 0, p.2.1), ?_, llamaDot_isPrefixOf_aNm 0⟩
    unfold typedCore
    rw [hgl]
    refine List.mem_append.mpr (Or.inl (List.mem_append.mpr (Or.inl ?_)))
    rw [groupOut, groupOutFrom_cons]
    exact List.mem_cons_self _ _

unseal natDigits in
theorem a0_key_eq : "lora_llama.a0.weight".data = aNm CandleLoraPrefix.Llama.as_str 0 := by
  decide

unseal natDigits in
theorem b0_key_eq : "lora_llama.b0.weight".data = bNm CandleLoraPrefix.Llama.as_str 0 := by
  decide

theorem typed_dummy_eq (m : TensorMap) (flag : Bool) :
    convert_peft_to_candle_lora_typed m flag =
      convert_peft_to_candle_lora_typed m false ++
        (if flag && (classGroup CandleLoraPrefix.Llama m).isEmpty then
          [("lora_llama.a0.weight".data, dummyA), ("lora_llama.b0.weight".data, dummyB)]
        else []) := by
  cases flag with
  | false => simp
  | true =>
    have h0 : convert_peft_to_candle_lora_typed m true =
        (if (convert_peft_to_candle_lora_typed m false).any
            (fun e => "lora_llama.".data.isPrefixOf e.1) then
          convert_peft_to_candle_lora_typed m false
        else insertKV (insertKV (convert_peft_to_candle_lora_typed m false)
          "lora_llama.a0.weight".data dummyA) "lora_llama.b0.weight".data dummyB) := rfl
    rw [h0, typed_core_eq, typedCore_any_llama, Bool.true_and]
    by_cases hgl : (classGroup CandleLoraPrefix.Llama m).isEmpty
    · rw [hgl, Bool.not_true, if_neg (by simp), if_pos rfl]
      have hfresh : ∀ e ∈ typedCore m, ∀ j,
          e.1 ≠ aNm CandleLoraPrefix.Llama.as_str j ∧
          e.1 ≠ bNm CandleLoraPrefix.Llama.as_str j := by
        intro e he j
        unfold typedCore at he
        rw [List.isEmpty_iff.mp hgl] at he
        have hnil : groupOut CandleLoraPrefix.Llama.as_str [] = [] := rfl
        rw [hnil, List.nil_append] at he
        rcases List.mem_append.mp he with he | he
        · obtain ⟨k, hk⟩ := groupOut_key_form he
          rcases hk with hk | hk <;> rw [hk]
          · exact ⟨(keys_ne_llama_csa j k).1.symm, (keys_ne_llama_csa j k).2.2.1.symm⟩
          · exact ⟨(keys_ne_llama_csa j k).2.1.symm, (keys_ne_llama_csa j k).2.2.2.symm⟩
        · obtain ⟨k, hk⟩ := groupOut_key_form he
          rcases hk with hk | hk <;> rw [hk]
          · exact ⟨(keys_ne_llama_block j k).1.symm, (keys_ne_llama_block j k).2.2.1.symm⟩
          · exact ⟨(keys_ne_llama_block j k).2.1.symm, (keys_ne_llama_block j k).2.2.2.symm⟩
      have hins1 : insertKV (typedCore m) "lora_llama.a0.weight".data dummyA =
          typedCore m ++ [("lora_llama.a0.weight".data, dummyA)] := by
        refine insertKV_eq_append (fun e he => ?_)
        rw [a0_key_eq]
        exact (hfresh e he 0).1
      have hins2 : insertKV (typedCore m ++ [("lora_llama.a0.weight".data, dummyA)])
          "lora_llama.b0.weight".data dummyB =
          (typedCore m ++ [("lora_llama.a0.weight".data, dummyA)]) ++
            [("lora_llama.b0.weight".data, dummyB)] := by
        refine insertKV_eq_append (fun e he => ?_)
        rcases List.mem_append.mp he with he | he
        · rw [b0_key_eq]
          exact (hfresh e he 0).2
        · rcases List.mem_singleton.mp he with rfl
          rw [a0_key_eq, b0_key_eq]
          exact aNm_ne_bNm _ 0 0
      rw [hins1, hins2]
      simp
    · have hgl' : (classGroup CandleLoraPrefix.Llama m).isEmpty = false := by
        rwa [Bool.not_eq_true] at hgl
      rw [hgl']
      simp

/-! Orphaned factors: entries whose counterpart is missing contribute
nothing. -/

theorem containsSub_of_suffix {pat k : Name} (h : pat <:+ k) : containsSub pat k = true := by
  obtain ⟨q, rfl⟩ := h
  exact containsSub_append_self pat q

theorem wf_suffixA {k : Name} (hwf : wfA k = true) (hc : containsSub loraA k = true) :
    loraA.isSuffixOf k = true :=
  List.isSuffixOf_iff_suffix.mpr ⟨dropSuffix loraA k, ((wfA_spec hwf hc).1).symm⟩

/-- Keep an entry unless it is an orphaned A-only or B-only factor: an entry
whose key carries a marker suffix survives exactly when the counterpart key is
present in `m`. -/
def keepNonOrphan (m : TensorMap) (e : Name × Tensor) : Bool :=
  if loraA.isSuffixOf e.1 then (mapGet (dropSuffix loraA e.1 ++ loraB) m).isSome
  else if loraB.isSuffixOf e.1 then (mapGet (dropSuffix loraB e.1 ++ loraA) m).isSome
  else true

theorem lookupB_filter_eq {m : TensorMap} (hwf : ∀ e ∈ m, wfA e.1 = true)
    {q : Name} (hA : mapGet (q ++ loraA) m ≠ none) :
    mapGet (q ++ loraB) (m.filter (keepNonOrphan m)) = mapGet (q ++ loraB) m := by
  cases hb : mapGet (q ++ loraB) m with
  | none => exact mapGet_filter_none hb
  | some b =>
    rw [← hb]
    refine mapGet_filter_of_keep (fun t ht => ?_)
    unfold keepNonOrphan
    have hsufB : loraB <:+ (q ++ loraB) := ⟨q, rfl⟩
    have hnotA : loraA.isSuffixOf (q ++ loraB) = false := by
      rw [Bool.eq_false_iff]
      intro hsa
      exact suffix_A_not_B (List.isSuffixOf_iff_suffix.mp hsa) hsufB
    rw [hnotA]
    simp only [Bool.false_eq_true, if_false]
    rw [if_pos (List.isSuffixOf_iff_suffix.mpr hsufB)]
    show (mapGet (dropSuffix loraB (q ++ loraB) ++ loraA) m).isSome = true
    rw [dropSuffix_append]
    cases ha : mapGet (q ++ loraA) m with
    | none => exact absurd ha hA
    | some a => rfl

theorem pairOf_dropped_none {m : TensorMap} (hwf : ∀ e ∈ m, wfA e.1 = true)
    {e : Name × Tensor} (he : e ∈ m) (hkeep : keepNonOrphan m e = false) :
    pairOf m e = none := by
  unfold keepNonOrphan at hkeep
  by_cases hsa : loraA.isSuffixOf e.1 = true
  · rw [if_pos hsa] at hkeep
    have hc : containsSub loraA e.1 = true :=
      containsSub_of_suffix (List.isSuffixOf_iff_suffix.mp hsa)
    have hspec := wfA_spec (hwf e he) hc
    unfold pairOf
    rw [if_pos hc, hspec.2]
    cases hb : mapGet (dropSuffix loraA e.1 ++ loraB) m with
    | some b =>
      rw [hb] at hkeep
      exact absurd hkeep (by simp)
    | none => rfl
  · unfold pairOf
    rw [if_neg ?_]
    intro hc
    exact hsa (wf_suffixA (hwf e he) hc)

theorem filterMap_filter_eq {f : Name × Tensor → Option (Name × Tensor × Tensor)}
    {p : Name × Tensor → Bool} :
    ∀ {l : List (Name × Tensor)}, (∀ e ∈ l, p e = false → f e = none) →
      (l.filter p).filterMap f = l.filterMap f
  | [], _ => rfl
  | e :: l', h => by
    rw [List.filter_cons, List.filterMap_cons]
    by_cases hpe : p e = true
    · rw [if_pos hpe, List.filterMap_cons]
      rw [filterMap_filter_eq (fun e' he' => h e' (List.mem_cons_of_mem _ he'))]
    · rw [if_neg hpe, h e (List.mem_cons_self _ _) (Bool.eq_false_iff.mpr hpe)]
      rw [filterMap_filter_eq (fun e' he' => h e' (List.mem_cons_of_mem _ he'))]

theorem extract_filter_orphans {m : TensorMap} (hwf : ∀ e ∈ m, wfA e.1 = true)
    (hnd : (m.map Prod.fst).Nodup) :
    extractPairs (m.filter (keepNonOrphan m)) = extractPairs m := by
  have hsub : (m.filter (keepNonOrphan m)).Sublist m := List.filter_sublist m
  have hwf' : ∀ e ∈ m.filter (keepNonOrphan m), wfA e.1 = true :=
    fun e he => hwf e (hsub.mem he)
  have hnd' : ((m.filter (keepNonOrphan m)).map Prod.fst).Nodup :=
    (hsub.map Prod.fst).nodup hnd
  rw [wf_extract_eq_filterMap hwf' hnd', wf_extract_eq_filterMap hwf hnd]
  have hcongr : ∀ e ∈ m.filter (keepNonOrphan m),
      pairOf (m.filter (keepNonOrphan m)) e = pairOf m e := by
    intro e he
    unfold pairOf
    by_cases hc : containsSub loraA e.1 = true
    · rw [if_pos hc, if_pos hc]
      have hem : e ∈ m := hsub.mem he
      have hspec := wfA_spec (hwf e hem) hc
      rw [hspec.2]
      rw [lookupB_filter_eq hwf ?_]
      rw [← hspec.1]
      intro hnone
      rw [mapGet_eq_none_iff] at hnone
      exact hnone e.2 (by simpa using hem)
    · rw [if_neg hc, if_neg hc]
  rw [List.filterMap_congr hcongr]
  exact filterMap_filter_eq (fun e he hk => pairOf_dropped_none hwf he hk)

/-! Which bases are extracted, and how many. -/

theorem extract_base_iff {m : TensorMap} (hwf : ∀ e ∈ m, wfA e.1 = true)
    (hnd : (m.map Prod.fst).Nodup) (base : Name) :
    base ∈ (extractPairs m).map (fun pr => pr.1) ↔
      (mapGet (base ++ loraA) m).isSome = true ∧
        (mapGet (base ++ loraB) m).isSome = true := by
  rw [wf_extract_eq_filterMap hwf hnd]
  constructor
  · intro h
    rcases List.mem_map.mp h with ⟨pr, hpr, hbase⟩
    rcases List.mem_filterMap.mp hpr with ⟨e, he, hp⟩
    obtain ⟨hc, hbase1⟩ := pairOf_some_base hp
    have hspec := wfA_spec (hwf e he) hc
    have hkey : e.1 = base ++ loraA := by
      rw [hspec.1, ← hspec.2, ← hbase1, hbase]
    constructor
    · rw [mapGet_isSome_iff]
      exact ⟨e.2, by rw [← hkey]; simpa using he⟩
    · have hb : mapGet (pr.1 ++ loraB) m = some pr.2.2 := by
        unfold pairOf at hp
        rw [if_pos hc] at hp
        cases hb' : mapGet (removeAll loraA e.1 ++ loraB) m with
        | some b =>
          rw [hb'] at hp
          injection hp with hp'
          rw [← hp']
          simpa [hbase1] using hb'
        | none =>
          rw [hb'] at hp
          cases hp
      rw [hbase] at hb
      rw [mapGet_isSome_iff]
      exact ⟨pr.2.2, mapGet_mem hb⟩
  · intro ⟨hA, hB⟩
    rcases Option.isSome_iff_exists.mp hA with ⟨t, ht⟩
    rcases Option.isSome_iff_exists.mp hB with ⟨b, hbm⟩
    have hem : (base ++ loraA, t) ∈ m := mapGet_mem ht
    have hc : containsSub loraA (base ++ loraA) = true := containsSub_append_self _ _
    have hspec := wfA_spec (hwf _ hem) hc
    have hrm : removeAll loraA (base ++ loraA) = base := by
      have := hspec.2
      simp only at this
      rw [this, dropSuffix_append]
    refine List.mem_map.mpr ⟨(base, t, b), ?_, rfl⟩
    refine List.mem_filterMap.mpr ⟨(base ++ loraA, t), hem, ?_⟩
    unfold pairOf
    simp only
    rw [if_pos hc, hrm, hbm]

theorem length_le_of_nodup_subset {l₁ l₂ : List Name} (h1 : l₁.Nodup) (h2 : l₁ ⊆ l₂) :
    l₁.length ≤ l₂.length :=
  calc l₁.length = l₁.toFinset.card := (List.toFinset_card_of_nodup h1).symm
    _ ≤ l₂.toFinset.card := Finset.card_le_card
      (fun x hx => List.mem_toFinset.mpr (h2 (List.mem_toFinset.mp hx)))
    _ ≤ l₂.length := List.toFinset_card_le l₂

theorem extract_count {m : TensorMap} (hwf : ∀ e ∈ m, wfA e.1 = true)
    (hnd : (m.map Prod.fst).Nodup) : 2 * (extractPairs m).length ≤ m.length := by
  set bases := (extractPairs m).map (fun pr => pr.1) with hbases
  have hbnd : bases.Nodup := extract_bases_nodup hwf hnd
  set keysL : List Name := bases.map (fun b => b ++ loraA) ++ bases.map (fun b => b ++ loraB)
    with hkeys
  have hknd : keysL.Nodup := by
    rw [hkeys, List.nodup_append]
    refine ⟨hbnd.map (fun x y h => List.append_cancel_right h),
      hbnd.map (fun x y h => List.append_cancel_right h), ?_⟩
    intro x hx hy
    rcases List.mem_map.mp hx with ⟨b₁, _, rfl⟩
    rcases List.mem_map.mp hy with ⟨b₂, _, hx2⟩
    exact appendA_ne_appendB b₁ b₂ hx2.symm
  have hsub : keysL ⊆ m.map Prod.fst := by
    intro x hx
    rw [hkeys] at hx
    rcases List.mem_append.mp hx with hx | hx
    · rcases List.mem_map.mp hx with ⟨b, hb, rfl⟩
      have := ((extract_base_iff hwf hnd b).mp hb).1
      rcases Option.isSome_iff_exists.mp this with ⟨t, ht⟩
      exact List.mem_map_of_mem Prod.fst (mapGet_mem ht)
    · rcases List.mem_map.mp hx with ⟨b, hb, rfl⟩
      have := ((extract_base_iff hwf hnd b).mp hb).2
      rcases Option.isSome_iff_exists.mp this with ⟨t, ht⟩
      exact List.mem_map_of_mem Prod.fst (mapGet_mem ht)
  have hlen := length_le_of_nodup_subset hknd hsub
  rw [hkeys] at hlen
  simp only [List.length_append, List.length_map] at hlen
  have hbl : bases.length = (extractPairs m).length := by
    rw [hbases, List.length_map]
  omega

/-! Remaining bridges used by the claim theorems. -/

theorem untyped_eq (m : TensorMap) (pre : Name) :
    convert_peft_to_candle_lora m pre = groupOut pre (sortByBase (extractPairs m)) := by
  unfold convert_peft_to_candle_lora
  exact emitGroup_nil_ct pre (sortByBase (extractPairs m))

theorem sorted_sound {m : TensorMap} : ∀ pr ∈ sortByBase (extractPairs m), soundPair m pr :=
  fun pr hpr => extract_sound pr ((sortByBase_perm _).mem_iff.mp hpr)

theorem classGroup_sound {m : TensorMap} {c : CandleLoraPrefix} :
    ∀ pr ∈ classGroup c m, soundPair m pr := by
  intro pr hpr
  unfold classGroup at hpr
  have := (sortByBase_perm _).mem_iff.mp hpr
  exact extract_sound pr (List.mem_of_mem_filter this)

theorem soundPair_tensors {m : TensorMap} {pr : Name × Tensor × Tensor}
    (h : soundPair m pr) : (∃ k, (k, pr.2.1) ∈ m) ∧ (∃ k, (k, pr.2.2) ∈ m) := by
  obtain ⟨e, he, _, _, ha, hb⟩ := h
  refine ⟨⟨e.1, ?_⟩, ⟨pr.1 ++ loraB, mapGet_mem hb⟩⟩
  rw [ha]
  simpa using he

theorem groupOut_tensor_mem {pre : Name} {ps : List (Name × Tensor × Tensor)}
    {m : TensorMap} (hps : ∀ pr ∈ ps, soundPair m pr) :
    ∀ e ∈ groupOut pre ps, ∃ k, (k, e.2) ∈ m := by
  intro e he
  obtain ⟨j, p, _, hp, hor⟩ := mem_groupOutFrom he
  rcases hor with rfl | rfl
  · exact (soundPair_tensors (hps p hp)).1
  · exact (soundPair_tensors (hps p hp)).2

theorem groupOut_keys_form {pre : Name} {ps : List (Name × Tensor × Tensor)} {k : Name}
    (hk : k ∈ (groupOut pre ps).map Prod.fst) : ∃ j, k = aNm pre j ∨ k = bNm pre j := by
  rcases List.mem_map.mp hk with ⟨e, he, rfl⟩
  exact groupOut_key_form he

theorem typedCore_keys_nodup (m : TensorMap) : ((typedCore m).map Prod.fst).Nodup := by
  unfold typedCore
  rw [List.map_append, List.map_append, List.nodup_append, List.nodup_append]
  refine ⟨⟨groupOutFrom_keys_nodup _ _ 0, groupOutFrom_keys_nodup _ _ 0, ?_⟩,
    groupOutFrom_keys_nodup _ _ 0, ?_⟩
  · intro k hkL hkC
    obtain ⟨i, hi⟩ := groupOut_keys_form hkL
    obtain ⟨j, hj⟩ := groupOut_keys_form hkC
    rcases hi with rfl | rfl <;> rcases hj with hj | hj
    · exact (keys_ne_llama_csa i j).1 hj
    · exact (keys_ne_llama_csa i j).2.1 hj
    · exact (keys_ne_llama_csa i j).2.2.1 hj
    · exact (keys_ne_llama_csa i j).2.2.2 hj
  · intro k hkLC hkB
    obtain ⟨j, hj⟩ := groupOut_keys_form hkB
    rcases List.mem_append.mp hkLC with hk | hk
    · obtain ⟨i, hi⟩ := groupOut_keys_form hk
      rcases hi with rfl | rfl <;> rcases hj with hj | hj
      · exact (keys_ne_llama_block i j).1 hj
      · exact (keys_ne_llama_block i j).2.1 hj
      · exact (keys_ne_llama_block i j).2.2.1 hj
      · exact (keys_ne_llama_block i j).2.2.2 hj
    · obtain ⟨i, hi⟩ := groupOut_keys_form hk
      rcases hi with rfl | rfl <;> rcases hj with hj | hj
      · exact (keys_ne_csa_block i j).1 hj
      · exact (keys_ne_csa_block i j).2.1 hj
      · exact (keys_ne_csa_block i j).2.2.1 hj
      · exact (keys_ne_csa_block i j).2.2.2 hj

theorem classGroup_eq_of_perm {m₁ m₂ : TensorMap} (hp : m₁.Perm m₂)
    (hwf : ∀ e ∈ m₁, wfA e.1 = true) (hnd : (m₁.map Prod.fst).Nodup)
    (c : CandleLoraPrefix) : classGroup c m₁ = classGroup c m₂ := by
  unfold classGroup
  refine sortByBase_eq_of_perm ((extract_perm_of_perm hp hwf hnd).filter _) ?_
  exact ((List.filter_sublist _).map _).nodup (extract_bases_nodup hwf hnd)

theorem typed_congr {m₁ m₂ : TensorMap}
    (h : ∀ c, classGroup c m₁ = classGroup c m₂) (flag : Bool) :
    convert_peft_to_candle_lora_typed m₁ flag = convert_peft_to_candle_lora_typed m₂ flag := by
  rw [typed_dummy_eq m₁ flag, typed_dummy_eq m₂ flag, typed_core_eq, typed_core_eq]
  unfold typedCore
  rw [h CandleLoraPrefix.Llama, h CandleLoraPrefix.LlamaCsa, h CandleLoraPrefix.LlamaBlock]

theorem classGroup_filter_orphans {m : TensorMap} (hwf : ∀ e ∈ m, wfA e.1 = true)
    (hnd : (m.map Prod.fst).Nodup) (c : CandleLoraPrefix) :
    classGroup c (m.filter (keepNonOrphan m)) = classGroup c m := by
  unfold classGroup
  rw [extract_filter_orphans hwf hnd]

/-! Claim theorems. -/

/-- Claim C4: the layer classifier is a total pure function of the base name:
it returns the embedding/head class exactly when the name contains
`embed_tokens` or `lm_head`; otherwise the attention class exactly when the
name contains `self_attn` together with one of `q_proj`, `k_proj`, `v_proj`,
`o_proj`; otherwise the block class — first matching rule wins and every name
lands in exactly one class. -/
theorem C4_classifier_total (n : Name) :
    (CandleLoraPrefix.from_peft_layer_name n = CandleLoraPrefix.Llama ↔
      (containsSub "embed_tokens".data n = true ∨ containsSub "lm_head".data n = true)) ∧
    (CandleLoraPrefix.from_peft_layer_name n = CandleLoraPrefix.LlamaCsa ↔
      (¬(containsSub "embed_tokens".data n = true ∨ containsSub "lm_head".data n = true) ∧
        (containsSub "self_attn".data n = true ∧
          (containsSub "q_proj".data n = true ∨ containsSub "k_proj".data n = true ∨
            containsSub "v_proj".data n = true ∨ containsSub "o_proj".data n = true)))) ∧
    (CandleLoraPrefix.from_peft_layer_name n = CandleLoraPrefix.LlamaBlock ↔
      (¬(containsSub "embed_tokens".data n = true ∨ containsSub "lm_head".data n = true) ∧
        ¬(containsSub "self_attn".data n = true ∧
          (containsSub "q_proj".data n = true ∨ containsSub "k_proj".data n = true ∨
            containsSub "v_proj".data n = true ∨ containsSub "o_proj".data n = true)))) := by
  unfold CandleLoraPrefix.from_peft_layer_name
  by_cases hA : (containsSub "embed_tokens".data n || containsSub "lm_head".data n) = true
  · rw [if_pos hA]
    rw [Bool.or_eq_true] at hA
    exact ⟨⟨fun _ => hA, fun _ => rfl⟩,
      ⟨fun h => absurd h (by decide), fun h => absurd hA h.1⟩,
      ⟨fun h => absurd h (by decide), fun h => absurd hA h.1⟩⟩
  · rw [if_neg hA]
    have hA' : ¬(containsSub "embed_tokens".data n = true ∨
        containsSub "lm_head".data n = true) := by
      rw [← Bool.or_eq_true]
      exact hA
    by_cases hB : (containsSub "self_attn".data n &&
        (containsSub "q_proj".data n || containsSub "k_proj".data n ||
          containsSub "v_proj".data n || containsSub "o_proj".data n)) = true
    · rw [if_pos hB]
      have hB' : containsSub "self_attn".data n = true ∧
          (containsSub "q_proj".data n = true ∨ containsSub "k_proj".data n = true ∨
            containsSub "v_proj".data n = true ∨ containsSub "o_proj".data n = true) := by
        rw [Bool.and_eq_true] at hB
        refine ⟨hB.1, ?_⟩
        have hor := hB.2
        simp only [Bool.or_eq_true] at hor
        tauto
      exact ⟨⟨fun h => absurd h (by decide), fun h => absurd h hA'⟩,
        ⟨fun _ => ⟨hA', hB'⟩, fun _ => rfl⟩,
        ⟨fun h => absurd h (by decide), fun h => absurd hB' h.2⟩⟩
    · rw [if_neg hB]
      have hB' : ¬(containsSub "self_attn".data n = true ∧
          (containsSub "q_proj".data n = true ∨ containsSub "k_proj".data n = true ∨
            containsSub "v_proj".data n = true ∨ containsSub "o_proj".data n = true)) := by
        intro h
        apply hB
        rw [Bool.and_eq_true]
        refine ⟨h.1, ?_⟩
        simp only [Bool.or_eq_true]
        tauto
      exact ⟨⟨fun h => absurd h (by decide), fun h => absurd h hA'⟩,
        ⟨fun h => absurd h (by decide), fun h => absurd h.2 hB'⟩,
        ⟨fun _ => ⟨hA', hB'⟩, fun _ => rfl⟩⟩

/-- Claim C5: in typed mode (dummy injection off, which is the renaming
stage), the output is exactly the three per-class emissions in the fixed
order, each class numbered by its own zero-based counter under its fixed
prefix (`lora_llama`, `lora_llama_csa`, `lora_llama_block`), the pairs of
each class in lexicographically sorted base-name order, an empty class
emitting nothing and reserving no index slots for the others. -/
theorem C5_typed_numbering (m : TensorMap) :
    convert_peft_to_candle_lora_typed m false =
      groupOut CandleLoraPrefix.Llama.as_str (classGroup CandleLoraPrefix.Llama m) ++
        groupOut CandleLoraPrefix.LlamaCsa.as_str (classGroup CandleLoraPrefix.LlamaCsa m) ++
        groupOut CandleLoraPrefix.LlamaBlock.as_str (classGroup CandleLoraPrefix.LlamaBlock m) :=
  typed_core_eq m

/-- Claim C7: the dummy pair is injected if and only if the injection flag is
set and the embedding/head class emitted zero entries after classification;
the injection adds exactly one pair of zero-filled tensors of the fixed
default shapes under index 0 of the `lora_llama` prefix, and nothing is
injected when the flag is unset or when that class has a member. -/
theorem C7_dummy_injection (m : TensorMap) (flag : Bool) :
    convert_peft_to_candle_lora_typed m flag =
      convert_peft_to_candle_lora_typed m false ++
        (if flag && (classGroup CandleLoraPrefix.Llama m).isEmpty then
          [("lora_llama.a0.weight".data, Tensor.zeros [4, 32000] DTy.F32),
            ("lora_llama.b0.weight".data, Tensor.zeros [2048, 4] DTy.F32)]
        else []) :=
  typed_dummy_eq m flag

/-- Claim C9: when neither candidate adapter file exists in the directory,
both directory-level conversions fail with the error message that names both
attempted filenames, and no output map is produced; when the first candidate
exists it is chosen; otherwise the second existing candidate is chosen. -/
theorem C9_directory_resolution (d : Dir) (load : Name → TensorMap) (pre : Name)
    (flag : Bool) :
    (containsSub "adapter_model.safetensors".data noAdapterMsg = true ∧
      containsSub "adapter.safetensors".data noAdapterMsg = true) ∧
    (d.fileExists "adapter_model.safetensors".data = false →
      d.fileExists "adapter.safetensors".data = false →
        convert_peft_dir_to_candle_lora d load pre = Except.error noAdapterMsg ∧
        convert_peft_dir_to_candle_lora_typed d load flag = Except.error noAdapterMsg) ∧
    (d.fileExists "adapter_model.safetensors".data = true →
        convert_peft_dir_to_candle_lora d load pre =
          Except.ok (convert_peft_to_candle_lora (load "adapter_model.safetensors".data) pre) ∧
        convert_peft_dir_to_candle_lora_typed d load flag =
          Except.ok (convert_peft_to_candle_lora_typed
            (load "adapter_model.safetensors".data) flag)) ∧
    (d.fileExists "adapter_model.safetensors".data = false →
      d.fileExists "adapter.safetensors".data = true →
        convert_peft_dir_to_candle_lora d load pre =
          Except.ok (convert_peft_to_candle_lora (load "adapter.safetensors".data) pre) ∧
        convert_peft_dir_to_candle_lora_typed d load flag =
          Except.ok (convert_peft_to_candle_lora_typed
            (load "adapter.safetensors".data) flag)) := by
  refine ⟨⟨by decide, by decide⟩, ?_, ?_, ?_⟩ <;> intros <;>
    unfold convert_peft_dir_to_candle_lora convert_peft_dir_to_candle_lora_typed <;>
    simp_all

/-- Claim C3 (amended): every extracted pair comes from a source key
containing `".lora_A.weight"` (not necessarily as a suffix), with the base
name obtained by removing every occurrence of the marker, the A factor being
that key's tensor and the B factor the tensor looked up at
`base_name ++ ".lora_B.weight"`; keys containing neither marker contribute
nothing to the output. -/
theorem C3_selection (m : TensorMap) :
    (∀ pr ∈ extractPairs m, soundPair m pr) ∧
      extractPairs (m.filter keepAB) = extractPairs m :=
  ⟨extract_sound, extract_filterAB m⟩

/-- Claim C6: no two entries emitted by the renamer (untyped, or typed before
dummy injection) share an output name, and every emitted tensor is the
verbatim tensor of some entry of the source mapping. -/
theorem C6_unique_names_verbatim (m : TensorMap) (pre : Name) :
    ((convert_peft_to_candle_lora m pre).map Prod.fst).Nodup ∧
    ((convert_peft_to_candle_lora_typed m false).map Prod.fst).Nodup ∧
    (∀ e ∈ convert_peft_to_candle_lora m pre, ∃ k, (k, e.2) ∈ m) ∧
    (∀ e ∈ convert_peft_to_candle_lora_typed m false, ∃ k, (k, e.2) ∈ m) := by
  refine ⟨?_, ?_, ?_, ?_⟩
  · rw [untyped_eq]
    exact groupOutFrom_keys_nodup pre _ 0
  · rw [typed_core_eq]
    exact typedCore_keys_nodup m
  · rw [untyped_eq]
    exact groupOut_tensor_mem sorted_sound
  · rw [typed_core_eq]
    intro e he
    unfold typedCore at he
    rcases List.mem_append.mp he with he | he
    · rcases List.mem_append.mp he with he | he
      · exact groupOut_tensor_mem classGroup_sound e he
      · exact groupOut_tensor_mem classGroup_sound e he
    · exact groupOut_tensor_mem classGroup_sound e he

/-- Claim C1 (amended): on a source mapping with distinct, PEFT-well-formed
keys (the A marker occurs at most once in a key, and then as a suffix), the
conversion is independent of the mapping's iteration order: any two iteration
orders of the same entries yield identical output maps, in both untyped and
typed mode. -/
theorem C1_order_determinism (m₁ m₂ : TensorMap) (pre : Name) (flag : Bool)
    (hp : m₁.Perm m₂) (hnd : (m₁.map Prod.fst).Nodup)
    (hwf : ∀ e ∈ m₁, wfA e.1 = true) :
    convert_peft_to_candle_lora m₁ pre = convert_peft_to_candle_lora m₂ pre ∧
      convert_peft_to_candle_lora_typed m₁ flag =
        convert_peft_to_candle_lora_typed m₂ flag := by
  constructor
  · rw [untyped_eq, untyped_eq, sorted_extract_eq_of_perm hp hwf hnd]
  · exact typed_congr (classGroup_eq_of_perm hp hwf hnd) flag

/-- Witness for C1: two iteration orders of a well-formed one-pair map. -/
theorem C1_order_determinism_witness :
    wAttn.Perm wAttnRev ∧ (wAttn.map Prod.fst).Nodup ∧ (∀ e ∈ wAttn, wfA e.1 = true) ∧
      (convert_peft_to_candle_lora wAttn "lora_llama".data =
          convert_peft_to_candle_lora wAttnRev "lora_llama".data ∧
        convert_peft_to_candle_lora_typed wAttn true =
          convert_peft_to_candle_lora_typed wAttnRev true) :=
  ⟨by decide, by decide, by decide,
    C1_order_determinism wAttn wAttnRev "lora_llama".data true
      (by decide) (by decide) (by decide)⟩

unseal removeAll natDigits List.merge List.mergeSort in
/-- Counterexample for C1 as stated: a map with adversarial keys whose two
iteration orders produce different outputs. -/
theorem C1_order_determinism_counterexample :
    cex1a.Perm cex1b ∧ (cex1a.map Prod.fst).Nodup ∧
      convert_peft_to_candle_lora cex1a "lora_llama".data ≠
        convert_peft_to_candle_lora cex1b "lora_llama".data := by
  refine ⟨by decide, by decide, by decide⟩

/-- Claim C2 (amended): on a source mapping with distinct, PEFT-well-formed
keys, the extractor produces exactly one pair per base name having both
factors present — the extracted bases are distinct and are exactly the bases
whose A key and B key both occur — and twice the number of pairs never
exceeds the number of source tensors. -/
theorem C2_pair_extraction (m : TensorMap)
    (hwf : ∀ e ∈ m, wfA e.1 = true) (hnd : (m.map Prod.fst).Nodup) :
    ((extractPairs m).map (fun pr => pr.1)).Nodup ∧
    (∀ base : Name, base ∈ (extractPairs m).map (fun pr => pr.1) ↔
      (mapGet (base ++ loraA) m).isSome = true ∧
        (mapGet (base ++ loraB) m).isSome = true) ∧
    2 * (extractPairs m).length ≤ m.length :=
  ⟨extract_bases_nodup hwf hnd, extract_base_iff hwf hnd, extract_count hwf hnd⟩

/-- Witness for C2: the well-formed one-pair map. -/
theorem C2_pair_extraction_witness :
    (∀ e ∈ wAttn, wfA e.1 = true) ∧ (wAttn.map Prod.fst).Nodup ∧
      (((extractPairs wAttn).map (fun pr => pr.1)).Nodup ∧
        (∀ base : Name, base ∈ (extractPairs wAttn).map (fun pr => pr.1) ↔
          (mapGet (base ++ loraA) wAttn).isSome = true ∧
            (mapGet (base ++ loraB) wAttn).isSome = true) ∧
        2 * (extractPairs wAttn).length ≤ wAttn.length) :=
  ⟨by decide, by decide, C2_pair_extraction wAttn (by decide) (by decide)⟩

unseal removeAll in
/-- Counterexample for C2 as stated: three tensors produce two pairs (more
than half), with both pairs sharing the base name `"x"`. -/
theorem C2_pair_extraction_counterexample :
    ¬(((extractPairs cex2).map (fun pr => pr.1)).Nodup ∧
        2 * (extractPairs cex2).length ≤ cex2.length) := by
  decide

unseal removeAll in
/-- Counterexample for C3 as stated: no key of the map ends in the A marker,
yet the extractor emits a pair (the marker occurs inside a key). -/
theorem C3_selection_counterexample :
    (∀ e ∈ cex3, loraA.isSuffixOf e.1 = false) ∧ extractPairs cex3 ≠ [] := by
  refine ⟨by decide, by decide⟩

/-- Claim C8 (amended): on a source mapping with distinct, PEFT-well-formed
keys, removing every orphaned entry — an A-suffixed key with no B
counterpart, or a B-suffixed key with no A counterpart — leaves the extracted
pairs and the output of every conversion mode unchanged: orphans contribute
no output entry and advance no index counter, and no error is raised. -/
theorem C8_orphans_excluded (m : TensorMap) (pre : Name) (flag : Bool)
    (hwf : ∀ e ∈ m, wfA e.1 = true) (hnd : (m.map Prod.fst).Nodup) :
    extractPairs (m.filter (keepNonOrphan m)) = extractPairs m ∧
    convert_peft_to_candle_lora (m.filter (keepNonOrphan m)) pre =
      convert_peft_to_candle_lora m pre ∧
    convert_peft_to_candle_lora_typed (m.filter (keepNonOrphan m)) flag =
      convert_peft_to_candle_lora_typed m flag := by
  refine ⟨extract_filter_orphans hwf hnd, ?_, ?_⟩
  · rw [untyped_eq, untyped_eq, extract_filter_orphans hwf hnd]
  · exact typed_congr (classGroup_filter_orphans hwf hnd) flag

/-- Witness for C8: a map holding a single orphaned A factor. -/
theorem C8_orphans_excluded_witness :
    (∀ e ∈ wOrphan, wfA e.1 = true) ∧ (wOrphan.map Prod.fst).Nodup ∧
      (extractPairs (wOrphan.filter (keepNonOrphan wOrphan)) = extractPairs wOrphan ∧
        convert_peft_to_candle_lora (wOrphan.filter (keepNonOrphan wOrphan))
            "lora_llama".data =
          convert_peft_to_candle_lora wOrphan "lora_llama".data ∧
        convert_peft_to_candle_lora_typed (wOrphan.filter (keepNonOrphan wOrphan)) true =
          convert_peft_to_candle_lora_typed wOrphan true) :=
  ⟨by decide, by decide,
    C8_orphans_excluded wOrphan "lora_llama".data true (by decide) (by decide)⟩

unseal removeAll natDigits List.merge List.mergeSort in
/-- Counterexample for C8 as stated: the first key of `cex8` carries the A
suffix and, with the base name read as the key minus that suffix, its B
counterpart is absent — yet its tensor still reaches the output, because the
code removes every occurrence of the marker and finds a B under the shorter
base. -/
theorem C8_orphans_excluded_counterexample :
    loraA.isSuffixOf "x.lora_A.weight.lora_A.weight".data = true ∧
      mapGet (dropSuffix loraA "x.lora_A.weight.lora_A.weight".data ++ loraB) cex8 = none ∧
      tA ∈ (convert_peft_to_candle_lora cex8 "lora_llama".data).map Prod.snd := by
  refine ⟨by decide, by decide, by decide⟩

/-- Claim C10: the presence of attention or block entries never suppresses
dummy injection — for every input whose extracted pairs all classify off the
embedding/head class, typed conversion with the flag set still stores the
zero-filled dummy pair under `lora_llama.a0.weight` / `lora_llama.b0.weight`. -/
theorem C10_injection_not_suppressed (m : TensorMap)
    (h : ∀ pr ∈ extractPairs m,
      CandleLoraPrefix.from_peft_layer_name pr.1 ≠ CandleLoraPrefix.Llama) :
    mapGet "lora_llama.a0.weight".data (convert_peft_to_candle_lora_typed m true) =
      some (Tensor.zeros [4, 32000] DTy.F32) ∧
    mapGet "lora_llama.b0.weight".data (convert_peft_to_candle_lora_typed m true) =
      some (Tensor.zeros [2048, 4] DTy.F32) := by
  have hgl : classGroup CandleLoraPrefix.Llama m = [] := by
    unfold classGroup
    have hfil : (extractPairs m).filter
        (fun p => decide (CandleLoraPrefix.from_peft_layer_name p.1 =
          CandleLoraPrefix.Llama)) = [] := by
      rw [List.filter_eq_nil_iff]
      intro pr hpr
      simpa using h pr hpr
    rw [hfil]
    simp [sortByBase]
  have hcoreA : mapGet "lora_llama.a0.weight".data (typedCore m) = none := by
    rw [mapGet_eq_none_iff]
    intro t ht
    have hk : "lora_llama.a0.weight".data ∈ (typedCore m).map Prod.fst := by
      have := List.mem_map_of_mem Prod.fst ht
      exact this
    unfold typedCore at hk
    rw [hgl] at hk
    rw [List.map_append, List.map_append] at hk
    rcases List.mem_append.mp hk with hk | hk
    · rcases List.mem_append.mp hk with hk | hk
      · simp [groupOut, groupOutFrom_nil] at hk
      · obtain ⟨j, hj⟩ := groupOut_keys_form hk
        rw [a0_key_eq] at hj
        rcases hj with hj | hj
        · exact (keys_ne_llama_csa 0 j).1 hj
        · exact (keys_ne_llama_csa 0 j).2.1 hj
    · obtain ⟨j, hj⟩ := groupOut_keys_form hk
      rw [a0_key_eq] at hj
      rcases hj with hj | hj
      · exact (keys_ne_llama_block 0 j).1 hj
      · exact (keys_ne_llama_block 0 j).2.1 hj
  have hcoreB : mapGet "lora_llama.b0.weight".data (typedCore m) = none := by
    rw [mapGet_eq_none_iff]
    intro t ht
    have hk : "lora_llama.b0.weight".data ∈ (typedCore m).map Prod.fst := by
      have := List.mem_map_of_mem Prod.fst ht
      exact this
    unfold typedCore at hk
    rw [hgl] at hk
    rw [List.map_append, List.map_append] at hk
    rcases List.mem_append.mp hk with hk | hk
    · rcases List.mem_append.mp hk with hk | hk
      · simp [groupOut, groupOutFrom_nil] at hk
      · obtain ⟨j, hj⟩ := groupOut_keys_form hk
        rw [b0_key_eq] at hj
        rcases hj with hj | hj
        · exact (keys_ne_llama_csa 0 j).2.2.1 hj
        · exact (keys_ne_llama_csa 0 j).2.2.2 hj
    · obtain ⟨j, hj⟩ := groupOut_keys_form hk
      rw [b0_key_eq] at hj
      rcases hj with hj | hj
      · exact (keys_ne_llama_block 0 j).2.2.1 hj
      · exact (keys_ne_llama_block 0 j).2.2.2 hj
  have hne : "lora_llama.a0.weight".data ≠ "lora_llama.b0.weight".data := by
    rw [a0_key_eq, b0_key_eq]
    exact aNm_ne_bNm _ 0 0
  rw [typed_dummy_eq m true, hgl, typed_core_eq]
  constructor
  · rw [mapGet_append, hcoreA]
    simp [mapGet_cons]
    rfl
  · rw [mapGet_append, hcoreB]
    simp [mapGet_cons, hne]
    rfl

unseal removeAll in
/-- Witness for C10: a map with one attention pair and no embedding/head
pair. -/
theorem C10_injection_not_suppressed_witness :
    (∀ pr ∈ extractPairs wAttn,
        CandleLoraPrefix.from_peft_layer_name pr.1 ≠ CandleLoraPrefix.Llama) ∧
      (mapGet "lora_llama.a0.weight".data (convert_peft_to_candle_lora_typed wAttn true) =
          some (Tensor.zeros [4, 32000] DTy.F32) ∧
        mapGet "lora_llama.b0.weight".data (convert_peft_to_candle_lora_typed wAttn true) =
          some (Tensor.zeros [2048, 4] DTy.F32)) :=
  ⟨by decide, C10_injection_not_suppressed wAttn (by decide)⟩
